import Mathlib

/-!
Shallow embedding of `src/RpcTransportDesign/PythonSimulations/Simulator.py`
(a discrete-event simulator comparing a Simple/SRPT packet scheduler with an
Ideal/Oracle scheduler), together with proofs about the embedded program.

Randomness in the Python program (`random.random()` draws and
`np.random.poisson` samples) is modelled by explicit oracle arguments: each
function that consumes a random draw takes the drawn value as an input.
Python's `list.sort(cmp=lambda x, y: cmp(key x, key y))` is a stable sort by
the key; it is modelled by `List.insertionSort` on the non-strict key order,
which is also stable.  Message sizes and priorities are embedded as `Int`
(Python integers, which the program can drive below zero), network delays as
`Nat` (they are sampled non-negative, and `depleteDelayQueue` removes all
zero-delay packets before decrementing, so no delay is ever decremented
below zero).
-/

namespace Simulator

/-- Module-level constant `avgDelay = 3` (mean of the Poisson delay). -/
def avgDelay : Nat := 3

/-- Module-level constant `fixedDelay = 1` (constant part of every delay). -/
def fixedDelay : Nat := 1

/-- Embedding of `generateMsgSize(distMatrix)`: the drawn uniform value
`randomNumber` is passed explicitly; the function returns the size of the
first row whose cumulative probability strictly exceeds the drawn value, and
no value if no row does (Python falls off the loop and returns `None`). -/
def generateMsgSize (distMatrix : List (ℚ × Int)) (randomNumber : ℚ) : Option Int :=
  match distMatrix with
  | [] => none
  | row :: rest =>
      if row.1 > randomNumber then some row.2 else generateMsgSize rest randomNumber

/-- A message `[message_id, message_size]` in the transmit queue. -/
structure Msg where
  id : Nat
  size : Int
deriving Repr, DecidableEq

/-- A packet `[message_id, remaining_message_size, priority]`. -/
structure Pkt where
  msgId : Nat
  size : Int
  prio : Int
deriving Repr, DecidableEq

/-- A delayed packet `[message_id, remaining_message_size, priority, delay]`. -/
structure DelayedPkt where
  msgId : Nat
  size : Int
  prio : Int
  delay : Nat
deriving Repr, DecidableEq

/-- Stripping the delay field: `pkt = delayedPkt[0:-1]`. -/
def DelayedPkt.toPkt (p : DelayedPkt) : Pkt := ⟨p.msgId, p.size, p.prio⟩

/-- The three queues owned by one `Scheduler` instance. -/
structure Sched where
  txQueue : List Msg
  delayQueue : List DelayedPkt
  rxQueue : List Pkt
deriving Repr, DecidableEq

/-- Python `delayQueue.sort(cmp=lambda x, y: cmp(x[3], y[3]))`: stable sort by
ascending delay. -/
def sortByDelay (q : List DelayedPkt) : List DelayedPkt :=
  List.insertionSort (fun a b => a.delay ≤ b.delay) q

/-- Python `rxQueue.sort(cmp=lambda x, y: cmp(x[2], y[2]))`: stable sort by
ascending priority. -/
def sortByPrio (q : List Pkt) : List Pkt :=
  List.insertionSort (fun a b => a.prio ≤ b.prio) q

/-- Python `txQueue.sort(cmp=lambda x, y: cmp(x[1], y[1]))`: stable sort by
ascending message size. -/
def sortBySize (q : List Msg) : List Msg :=
  List.insertionSort (fun a b => a.size ≤ b.size) q

/-- The tail of `addPktToDelayQueue` once the delay value has been computed:
build `delayedPkt = [msgId, msgSize, pktPrio, delay]`, append it to the delay
queue and re-sort the delay queue by delay. -/
def addPktToDelayQueueRaw (s : Sched) (pkt : Pkt) (delay : Nat) : Sched :=
  { s with delayQueue := sortByDelay (s.delayQueue ++ [⟨pkt.msgId, pkt.size, pkt.prio, delay⟩]) }

/-- Embedding of `Scheduler.addPktToDelayQueue(pkt, avgDelay)`: the Poisson
sample `np.random.poisson(avgDelay)` is the oracle argument, and the delay is
`sample + fixedDelay` exactly as in the source. -/
def addPktToDelayQueue (s : Sched) (pkt : Pkt) (poissonSample : Nat) : Sched :=
  addPktToDelayQueueRaw s pkt (poissonSample + fixedDelay)

/-- Embedding of `Scheduler.depleteDelayQueue()`: every delayed packet whose
delay is 0 is removed from the delay queue and appended (delay stripped) to
the receive queue, the receive queue is re-sorted by priority, and then every
packet still in the delay queue has its delay decremented by 1.  (The Python
loop iterates over a copy and uses `remove`, which over value-equal elements
removes exactly the zero-delay occurrences; the net effect is this
filter/map.) -/
def depleteDelayQueue (s : Sched) : Sched :=
  { s with
      rxQueue := sortByPrio
        (s.rxQueue ++ (s.delayQueue.filter (fun p => p.delay = 0)).map DelayedPkt.toPkt),
      delayQueue := (s.delayQueue.filter (fun p => ¬ p.delay = 0)).map
        (fun p => ⟨p.msgId, p.size, p.prio, p.delay - 1⟩) }

/-- One departure record `[slot, pktPrio, msgSize]` appended to
`pktOutTimes[msgId]`. -/
structure DepRec where
  slot : Nat
  prio : Int
  size : Int
deriving Repr, DecidableEq

/-- The `pktOutTimes` store of one scheduler type, as a total map from message
id to the ordered list of that message's departure records (a missing dict key
is the empty list; the Python code creates the key before the first append). -/
def PktOutTimes : Type := Nat → List DepRec

/-- The empty `pktOutTimes` dictionary. -/
def emptyPot : PktOutTimes := fun _ => []

/-- Appending one departure record for message `msgId`, as the Python
`pktOutTimes[msgId].append(...)` (creating the key first if absent). -/
def recordPkt (pot : PktOutTimes) (msgId : Nat) (r : DepRec) : PktOutTimes :=
  fun id => if id = msgId then pot id ++ [r] else pot id

/-- The shared tail of both schedulers: if the receive queue is non-empty, pop
its head and append the record `[slot, pktPrio, msgSize]` for that packet's
message id. -/
def retireHead (slot : Nat) (s : Sched) (pot : PktOutTimes) : Sched × PktOutTimes :=
  match s.rxQueue with
  | [] => (s, pot)
  | pkt :: rest =>
      ({ s with rxQueue := rest }, recordPkt pot pkt.msgId ⟨slot, pkt.prio, pkt.size⟩)

/-- The transmission phase of `Scheduler.simpleScheduler`: if the transmit
queue is non-empty, build the packet `[id, size, 0]` from its head, decrement
the head's size, inject the packet through the delay model (the Poisson sample
is the oracle argument), and pop the head if its size reached 0. -/
def simpleInject (s : Sched) (poissonSample : Nat) : Sched :=
  match s.txQueue with
  | [] => s
  | m :: rest =>
      let pkt : Pkt := ⟨m.id, m.size, 0⟩
      let m' : Msg := ⟨m.id, m.size - 1⟩
      addPktToDelayQueue
        { s with txQueue := if m'.size = 0 then rest else m' :: rest } pkt poissonSample

/-- Embedding of `Scheduler.simpleScheduler(slot, pktOutTimes)`: transmit at
most one packet, deplete the delay queue, retire at most one packet. -/
def simpleScheduler (slot : Nat) (s : Sched) (pot : PktOutTimes) (poissonSample : Nat) :
    Sched × PktOutTimes :=
  retireHead slot (depleteDelayQueue (simpleInject s poissonSample)) pot

/-- Removal of the first value-equal occurrence of a message, as Python
`txQueue.remove(msg)`. -/
def removeFirstMsg : List Msg → Msg → List Msg
  | [], _ => []
  | x :: xs, m => if x = m then xs else removeFirstMsg xs m |> (x :: ·)

/-- In-place decrement `msg[1] -= 1` of the first value-equal occurrence of a
message in the live transmit queue. -/
def decFirstMsg : List Msg → Msg → List Msg
  | [], _ => []
  | x :: xs, m => if x = m then ⟨x.id, x.size - 1⟩ :: xs else decFirstMsg xs m |> (x :: ·)

/-- The transmission loop of `Scheduler.idealScheduler`: iterate over the
snapshot `self.txQueue[:]`; for each message build the packet
`[id, size, size]` (priority = current remaining size), inject it through the
delay model (sample `ds i` for the i-th iteration), and then remove the
message from the live transmit queue if its size is 1, else decrement its
size in place. -/
def idealInjectLoop (ds : Nat → Nat) : List Msg → Nat → Sched → Sched
  | [], _, s => s
  | m :: rest, i, s =>
      let pkt : Pkt := ⟨m.id, m.size, m.size⟩
      let s' := addPktToDelayQueue s pkt (ds i)
      let s'' :=
        if m.size = 1 then { s' with txQueue := removeFirstMsg s'.txQueue m }
        else { s' with txQueue := decFirstMsg s'.txQueue m }
      idealInjectLoop ds rest (i + 1) s''

/-- The transmission phase of `Scheduler.idealScheduler`: run the injection
loop over the snapshot of the transmit queue. -/
def idealInject (s : Sched) (ds : Nat → Nat) : Sched :=
  idealInjectLoop ds s.txQueue 0 s

/-- Embedding of `Scheduler.idealScheduler(slot, pktOutTimes)`: transmit one
packet per message in the transmit queue, deplete the delay queue, retire at
most one packet. -/
def idealScheduler (slot : Nat) (s : Sched) (pot : PktOutTimes) (ds : Nat → Nat) :
    Sched × PktOutTimes :=
  retireHead slot (depleteDelayQueue (idealInject s ds)) pot

/-- Arrival insertion in `run`: append the fresh message `[msgId, size]` to
the transmit queue and re-sort it by size. -/
def insertTx (s : Sched) (id : Nat) (size : Int) : Sched :=
  { s with txQueue := sortBySize (s.txQueue ++ [⟨id, size⟩]) }

-- sanity examples (concrete evaluation of the embedded operations)
example :
    depleteDelayQueue ⟨[], [⟨0, 1, 0, 0⟩, ⟨1, 2, 5, 1⟩], []⟩
      = ⟨[], [⟨1, 2, 5, 0⟩], [⟨0, 1, 0⟩]⟩ := by decide

example :
    simpleInject ⟨[⟨0, 1⟩, ⟨1, 3⟩], [], []⟩ 2
      = ⟨[⟨1, 3⟩], [⟨0, 1, 0, 3⟩], []⟩ := by decide

example :
    idealInject ⟨[⟨0, 1⟩, ⟨1, 3⟩], [], []⟩ (fun _ => 0)
      = ⟨[⟨1, 2⟩], [⟨0, 1, 1, 1⟩, ⟨1, 3, 3, 1⟩], []⟩ := by decide

example :
    (simpleScheduler 7 ⟨[], [], [⟨4, 2, 0⟩]⟩ emptyPot 0).2 4 = [⟨7, 0, 2⟩] := by decide

/-! ### Mass accounting: how much of a message sits in each queue -/

/-- Total remaining size held in the transmit queue for message `id`. -/
def txMass (id : Nat) (q : List Msg) : Int :=
  ((q.filter (fun m => m.id = id)).map Msg.size).sum

/-- Number of packets of message `id` in the delay queue. -/
def delayCount (id : Nat) (q : List DelayedPkt) : Nat :=
  q.countP (fun p => p.msgId = id)

/-- Number of packets of message `id` in the receive queue. -/
def rxCount (id : Nat) (q : List Pkt) : Nat :=
  q.countP (fun p => p.msgId = id)

lemma txMass_nil (id : Nat) : txMass id [] = 0 := rfl

lemma delayCount_nil (id : Nat) : delayCount id [] = 0 := rfl

lemma rxCount_nil (id : Nat) : rxCount id [] = 0 := rfl

lemma txMass_cons (id : Nat) (x : Msg) (xs : List Msg) :
    txMass id (x :: xs) = (if x.id = id then x.size else 0) + txMass id xs := by
  by_cases h : x.id = id <;> simp [txMass, List.filter_cons, h]

lemma txMass_append (id : Nat) (xs ys : List Msg) :
    txMass id (xs ++ ys) = txMass id xs + txMass id ys := by
  simp [txMass, List.filter_append]

lemma txMass_perm (id : Nat) {q q' : List Msg} (h : q.Perm q') :
    txMass id q = txMass id q' :=
  List.Perm.sum_eq ((h.filter _).map _)

lemma txMass_sortBySize (id : Nat) (q : List Msg) :
    txMass id (sortBySize q) = txMass id q :=
  txMass_perm id (List.perm_insertionSort _ q)

lemma delayCount_cons (id : Nat) (x : DelayedPkt) (xs : List DelayedPkt) :
    delayCount id (x :: xs) = (if x.msgId = id then 1 else 0) + delayCount id xs := by
  by_cases h : x.msgId = id <;> simp [delayCount, List.countP_cons, h] <;> omega

lemma delayCount_append (id : Nat) (xs ys : List DelayedPkt) :
    delayCount id (xs ++ ys) = delayCount id xs + delayCount id ys := by
  simp [delayCount, List.countP_append]

lemma delayCount_perm (id : Nat) {q q' : List DelayedPkt} (h : q.Perm q') :
    delayCount id q = delayCount id q' :=
  h.countP_eq _

lemma delayCount_sortByDelay (id : Nat) (q : List DelayedPkt) :
    delayCount id (sortByDelay q) = delayCount id q :=
  delayCount_perm id (List.perm_insertionSort _ q)

lemma rxCount_cons (id : Nat) (x : Pkt) (xs : List Pkt) :
    rxCount id (x :: xs) = (if x.msgId = id then 1 else 0) + rxCount id xs := by
  by_cases h : x.msgId = id <;> simp [rxCount, List.countP_cons, h] <;> omega

lemma rxCount_append (id : Nat) (xs ys : List Pkt) :
    rxCount id (xs ++ ys) = rxCount id xs + rxCount id ys := by
  simp [rxCount, List.countP_append]

lemma rxCount_perm (id : Nat) {q q' : List Pkt} (h : q.Perm q') :
    rxCount id q = rxCount id q' :=
  h.countP_eq _

lemma rxCount_sortByPrio (id : Nat) (q : List Pkt) :
    rxCount id (sortByPrio q) = rxCount id q :=
  rxCount_perm id (List.perm_insertionSort _ q)

/-! ### Phase lemmas for `depleteDelayQueue` -/

lemma depleteDelayQueue_txQueue (s : Sched) :
    (depleteDelayQueue s).txQueue = s.txQueue := rfl

/-- Depletion conserves, per message, the total number of packets in the delay
and receive queues: released packets move from one queue to the other. -/
lemma depleteDelayQueue_mass (id : Nat) (s : Sched) :
    delayCount id (depleteDelayQueue s).delayQueue
      + rxCount id (depleteDelayQueue s).rxQueue
    = delayCount id s.delayQueue + rxCount id s.rxQueue := by
  have hsplit :
      (s.delayQueue.filter (fun p => decide (p.delay = 0))
          ++ s.delayQueue.filter (fun p => !decide (p.delay = 0))).Perm s.delayQueue :=
    List.filter_append_perm _ _
  have hc := hsplit.countP_eq (fun p => decide (p.msgId = id))
  have hnot : (fun (p : DelayedPkt) => !decide (p.delay = 0))
      = fun p => decide (¬ p.delay = 0) := by
    funext p; simp
  simp only [depleteDelayQueue, rxCount_sortByPrio, rxCount_append]
  simp only [delayCount, rxCount, List.countP_append] at hc ⊢
  rw [← hnot]
  have hmapdec : List.countP (fun p => decide (p.msgId = id))
      ((s.delayQueue.filter (fun p => !decide (p.delay = 0))).map
        (fun p => (⟨p.msgId, p.size, p.prio, p.delay - 1⟩ : DelayedPkt)))
      = List.countP (fun p => decide (p.msgId = id))
          (s.delayQueue.filter (fun p => !decide (p.delay = 0))) := by
    rw [List.countP_map]; rfl
  have hmaprel : List.countP (fun p => decide (p.msgId = id))
      ((s.delayQueue.filter (fun p => decide (p.delay = 0))).map DelayedPkt.toPkt)
      = List.countP (fun p => decide (p.msgId = id))
          (s.delayQueue.filter (fun p => decide (p.delay = 0))) := by
    rw [List.countP_map]; rfl
  rw [hmapdec, hmaprel]
  omega

/-! ### Phase lemmas for `retireHead` -/

lemma retireHead_txQueue (slot : Nat) (s : Sched) (pot : PktOutTimes) :
    (retireHead slot s pot).1.txQueue = s.txQueue := by
  cases h : s.rxQueue <;> simp [retireHead, h]

lemma retireHead_delayQueue (slot : Nat) (s : Sched) (pot : PktOutTimes) :
    (retireHead slot s pot).1.delayQueue = s.delayQueue := by
  cases h : s.rxQueue <;> simp [retireHead, h]

/-- Retiring the head of the receive queue drops exactly its first element. -/
lemma retireHead_rxQueue (slot : Nat) (s : Sched) (pot : PktOutTimes) :
    (retireHead slot s pot).1.rxQueue = s.rxQueue.drop 1 := by
  cases h : s.rxQueue <;> simp [retireHead, h]

/-- Retirement conserves, per message, receive-queue packets plus recorded
departures. -/
lemma retireHead_mass (id : Nat) (slot : Nat) (s : Sched) (pot : PktOutTimes) :
    rxCount id (retireHead slot s pot).1.rxQueue
      + ((retireHead slot s pot).2 id).length
    = rxCount id s.rxQueue + (pot id).length := by
  cases h : s.rxQueue with
  | nil => simp [retireHead, h]
  | cons p rest =>
      by_cases hid : p.msgId = id
      · simp [retireHead, h, recordPkt, rxCount_cons, hid]
        omega
      · have : ¬ id = p.msgId := fun hh => hid hh.symm
        simp [retireHead, h, recordPkt, rxCount_cons, hid, this]

/-- Each invocation of `retireHead` appends at most one departure record for
each message id. -/
lemma retireHead_pot_le (id : Nat) (slot : Nat) (s : Sched) (pot : PktOutTimes) :
    ((retireHead slot s pot).2 id).length ≤ (pot id).length + 1 := by
  cases h : s.rxQueue with
  | nil => simp [retireHead, h]
  | cons p rest =>
      by_cases hid : id = p.msgId <;> simp [retireHead, h, recordPkt, hid]

/-! ### Phase lemmas for packet injection -/

lemma addPktToDelayQueueRaw_txQueue (s : Sched) (pkt : Pkt) (d : Nat) :
    (addPktToDelayQueueRaw s pkt d).txQueue = s.txQueue := rfl

lemma addPktToDelayQueueRaw_rxQueue (s : Sched) (pkt : Pkt) (d : Nat) :
    (addPktToDelayQueueRaw s pkt d).rxQueue = s.rxQueue := rfl

lemma addPktToDelayQueueRaw_delayCount (id : Nat) (s : Sched) (pkt : Pkt) (d : Nat) :
    delayCount id (addPktToDelayQueueRaw s pkt d).delayQueue
      = delayCount id s.delayQueue + (if pkt.msgId = id then 1 else 0) := by
  simp only [addPktToDelayQueueRaw, delayCount_sortByDelay, delayCount_append,
    delayCount_cons, delayCount_nil]
  omega

lemma addPktToDelayQueueRaw_length (s : Sched) (pkt : Pkt) (d : Nat) :
    (addPktToDelayQueueRaw s pkt d).delayQueue.length = s.delayQueue.length + 1 := by
  simp [addPktToDelayQueueRaw, sortByDelay, (List.perm_insertionSort _ _).length_eq]

lemma simpleInject_rxQueue (s : Sched) (d : Nat) :
    (simpleInject s d).rxQueue = s.rxQueue := by
  cases h : s.txQueue <;> simp [simpleInject, h, addPktToDelayQueue, addPktToDelayQueueRaw]

/-- The Simple scheduler's transmission phase adds exactly one packet to the
delay queue when the transmit queue is non-empty and none otherwise. -/
lemma simpleInject_length (s : Sched) (d : Nat) :
    (simpleInject s d).delayQueue.length
      = s.delayQueue.length + (if s.txQueue.isEmpty then 0 else 1) := by
  cases h : s.txQueue with
  | nil => simp [simpleInject, h]
  | cons m rest =>
      simp [simpleInject, h, addPktToDelayQueue, addPktToDelayQueueRaw_length]

/-- The Simple scheduler's transmission phase conserves, per message, the
remaining transmit-queue size plus the number of delay-queue packets. -/
lemma simpleInject_mass (id : Nat) (s : Sched) (d : Nat) :
    txMass id (simpleInject s d).txQueue + delayCount id (simpleInject s d).delayQueue
      = txMass id s.txQueue + delayCount id s.delayQueue := by
  cases h : s.txQueue with
  | nil => simp [simpleInject, h]
  | cons m rest =>
      simp only [simpleInject, h, addPktToDelayQueue, addPktToDelayQueueRaw_delayCount,
        addPktToDelayQueueRaw_txQueue]
      by_cases hz : (⟨m.id, m.size - 1⟩ : Msg).size = 0
      · have hsz : m.size = 1 := by
          have : m.size - 1 = 0 := hz
          omega
        by_cases hid : m.id = id <;>
          simp [hz, hid, txMass_cons, hsz] <;> omega
      · by_cases hid : m.id = id <;>
          simp [hz, hid, txMass_cons] <;> omega

/-! ### Phase lemmas for the Ideal scheduler's injection loop -/

/-- Number of occurrences of the value `v` in a message list. -/
def cntMsg (v : Msg) (l : List Msg) : Nat := l.countP (fun x => x = v)

lemma cntMsg_nil (v : Msg) : cntMsg v [] = 0 := rfl

lemma cntMsg_cons (v x : Msg) (xs : List Msg) :
    cntMsg v (x :: xs) = (if x = v then 1 else 0) + cntMsg v xs := by
  by_cases h : x = v <;> simp [cntMsg, List.countP_cons, h] <;> omega

lemma cntMsg_pos_of_mem {m : Msg} {l : List Msg} (h : m ∈ l) : 1 ≤ cntMsg m l := by
  induction l with
  | nil => cases h
  | cons x xs ih =>
      rw [cntMsg_cons]
      rcases List.mem_cons.mp h with h1 | h2
      · simp [h1.symm]
      · have := ih h2
        omega

lemma mem_of_cntMsg_pos {m : Msg} {l : List Msg} (h : 1 ≤ cntMsg m l) : m ∈ l := by
  induction l with
  | nil => simp [cntMsg_nil] at h
  | cons x xs ih =>
      rw [cntMsg_cons] at h
      by_cases hx : x = m
      · exact hx ▸ List.mem_cons_self x xs
      · simp only [hx, if_false] at h
        exact List.mem_cons_of_mem _ (ih (by omega))

lemma removeFirstMsg_cons_self (x : Msg) (xs : List Msg) :
    removeFirstMsg (x :: xs) x = xs := by
  simp [removeFirstMsg]

lemma removeFirstMsg_cons_ne {x m : Msg} (xs : List Msg) (h : ¬ x = m) :
    removeFirstMsg (x :: xs) m = x :: removeFirstMsg xs m := by
  simp [removeFirstMsg, h]

lemma decFirstMsg_cons_self (x : Msg) (xs : List Msg) :
    decFirstMsg (x :: xs) x = ⟨x.id, x.size - 1⟩ :: xs := by
  simp [decFirstMsg]

lemma decFirstMsg_cons_ne {x m : Msg} (xs : List Msg) (h : ¬ x = m) :
    decFirstMsg (x :: xs) m = x :: decFirstMsg xs m := by
  simp [decFirstMsg, h]

lemma removeFirstMsg_cntMsg (l : List Msg) (m : Msg) (v : Msg) (h : m ∈ l) :
    cntMsg v (removeFirstMsg l m) = cntMsg v l - (if m = v then 1 else 0) := by
  induction l with
  | nil => cases h
  | cons x xs ih =>
      by_cases hx : x = m
      · subst hx
        rw [removeFirstMsg_cons_self, cntMsg_cons]
        split_ifs <;> omega
      · have hm : m ∈ xs := by
          cases h with
          | head => exact absurd rfl hx
          | tail _ hh => exact hh
        rw [removeFirstMsg_cons_ne xs hx, cntMsg_cons, cntMsg_cons, ih hm]
        by_cases hmv : m = v
        · have hp : 1 ≤ cntMsg v xs := hmv ▸ cntMsg_pos_of_mem hm
          by_cases hxv : x = v <;> simp [hmv, hxv] <;> omega
        · by_cases hxv : x = v <;> simp [hmv, hxv]

lemma removeFirstMsg_txMass (l : List Msg) (m : Msg) (id : Nat) (h : m ∈ l) :
    txMass id (removeFirstMsg l m)
      = txMass id l - (if m.id = id then m.size else 0) := by
  induction l with
  | nil => cases h
  | cons x xs ih =>
      by_cases hx : x = m
      · subst hx
        rw [removeFirstMsg_cons_self, txMass_cons]
        split_ifs <;> ring
      · have hm : m ∈ xs := by
          cases h with
          | head => exact absurd rfl hx
          | tail _ hh => exact hh
        rw [removeFirstMsg_cons_ne xs hx, txMass_cons, txMass_cons, ih hm]
        ring

lemma decFirstMsg_cntMsg_ge (l : List Msg) (m : Msg) (v : Msg) (h : m ∈ l) :
    cntMsg v l - (if m = v then 1 else 0) ≤ cntMsg v (decFirstMsg l m) := by
  induction l with
  | nil => cases h
  | cons x xs ih =>
      by_cases hx : x = m
      · subst hx
        rw [decFirstMsg_cons_self, cntMsg_cons, cntMsg_cons]
        split_ifs <;> omega
      · have hm : m ∈ xs := by
          cases h with
          | head => exact absurd rfl hx
          | tail _ hh => exact hh
        have := ih hm
        rw [decFirstMsg_cons_ne xs hx, cntMsg_cons, cntMsg_cons]
        split_ifs at this ⊢ <;> omega

lemma decFirstMsg_txMass (l : List Msg) (m : Msg) (id : Nat) (h : m ∈ l) :
    txMass id (decFirstMsg l m)
      = txMass id l - (if m.id = id then 1 else 0) := by
  induction l with
  | nil => cases h
  | cons x xs ih =>
      by_cases hx : x = m
      · subst hx
        rw [decFirstMsg_cons_self, txMass_cons, txMass_cons]
        split_ifs <;> simp <;> ring
      · have hm : m ∈ xs := by
          cases h with
          | head => exact absurd rfl hx
          | tail _ hh => exact hh
        rw [decFirstMsg_cons_ne xs hx, txMass_cons, txMass_cons, ih hm]
        ring

lemma idealInjectLoop_rxQueue (ds : Nat → Nat) :
    ∀ (msgs : List Msg) (i : Nat) (s : Sched),
      (idealInjectLoop ds msgs i s).rxQueue = s.rxQueue := by
  intro msgs
  induction msgs with
  | nil => intro i s; rfl
  | cons m rest ih =>
      intro i s
      by_cases hz : m.size = 1 <;>
        simp [idealInjectLoop, hz, ih, addPktToDelayQueue, addPktToDelayQueueRaw]

/-- The Ideal scheduler's injection loop adds exactly one delay-queue packet
per message of the snapshot it iterates over. -/
lemma idealInjectLoop_length (ds : Nat → Nat) :
    ∀ (msgs : List Msg) (i : Nat) (s : Sched),
      (idealInjectLoop ds msgs i s).delayQueue.length
        = s.delayQueue.length + msgs.length := by
  intro msgs
  induction msgs with
  | nil => intro i s; rfl
  | cons m rest ih =>
      intro i s
      by_cases hz : m.size = 1 <;>
        simp [idealInjectLoop, hz, ih, addPktToDelayQueue, addPktToDelayQueueRaw_length] <;>
          omega

/-- Per message id, the injection loop adds to the delay queue exactly one
packet for each snapshot message carrying that id. -/
lemma idealInjectLoop_delayCount (ds : Nat → Nat) (id : Nat) :
    ∀ (msgs : List Msg) (i : Nat) (s : Sched),
      delayCount id (idealInjectLoop ds msgs i s).delayQueue
        = delayCount id s.delayQueue + msgs.countP (fun m => m.id = id) := by
  intro msgs
  induction msgs with
  | nil => intro i s; simp [idealInjectLoop]
  | cons m rest ih =>
      intro i s
      by_cases hid : m.id = id <;> by_cases hz : m.size = 1 <;>
        simp [idealInjectLoop, hz, ih, addPktToDelayQueue, addPktToDelayQueueRaw_delayCount,
          List.countP_cons, hid] <;> omega

/-- The Ideal scheduler's injection loop conserves, per message id, the
remaining transmit-queue size plus the delay-queue packet count, provided the
live transmit queue holds each snapshot value at least as often as the
remaining snapshot does (true at loop entry, where the snapshot is a copy of
the transmit queue). -/
lemma idealInjectLoop_mass (ds : Nat → Nat) (id : Nat) :
    ∀ (msgs : List Msg) (i : Nat) (s : Sched),
      (∀ v : Msg, cntMsg v msgs ≤ cntMsg v s.txQueue) →
      txMass id (idealInjectLoop ds msgs i s).txQueue
          + delayCount id (idealInjectLoop ds msgs i s).delayQueue
        = txMass id s.txQueue + delayCount id s.delayQueue := by
  intro msgs
  induction msgs with
  | nil => intro i s _; rfl
  | cons m rest ih =>
      intro i s hcnt
      have hmem : m ∈ s.txQueue := by
        apply mem_of_cntMsg_pos
        have := hcnt m
        rw [cntMsg_cons] at this
        simp at this
        omega
      by_cases hz : m.size = 1
      · rw [idealInjectLoop]
        simp only [hz, if_pos]
        rw [ih]
        · simp only [addPktToDelayQueue, addPktToDelayQueueRaw]
          rw [removeFirstMsg_txMass _ _ _ hmem]
          simp only [delayCount_sortByDelay, delayCount_append, delayCount_cons, delayCount_nil]
          by_cases hid : m.id = id <;> simp [hid, hz] <;> omega
        · intro v
          have h1 := hcnt v
          rw [cntMsg_cons] at h1
          have h2 := removeFirstMsg_cntMsg s.txQueue m v hmem
          simp only [addPktToDelayQueue, addPktToDelayQueueRaw]
          rw [h2]
          by_cases hmv : m = v <;> simp [hmv] at h1 ⊢ <;> omega
      · rw [idealInjectLoop]
        simp only [hz, if_neg, if_false]
        rw [ih]
        · simp only [addPktToDelayQueue, addPktToDelayQueueRaw]
          rw [decFirstMsg_txMass _ _ _ hmem]
          simp only [delayCount_sortByDelay, delayCount_append, delayCount_cons, delayCount_nil]
          by_cases hid : m.id = id <;> simp [hid] <;> omega
        · intro v
          have h1 := hcnt v
          rw [cntMsg_cons] at h1
          have h2 := decFirstMsg_cntMsg_ge s.txQueue m v hmem
          simp only [addPktToDelayQueue, addPktToDelayQueueRaw]
          by_cases hmv : m = v <;> simp [hmv] at h1 h2 ⊢ <;> omega

/-- Mass conservation across the whole Ideal injection phase. -/
lemma idealInject_mass (id : Nat) (s : Sched) (ds : Nat → Nat) :
    txMass id (idealInject s ds).txQueue + delayCount id (idealInject s ds).delayQueue
      = txMass id s.txQueue + delayCount id s.delayQueue :=
  idealInjectLoop_mass ds id s.txQueue 0 s (fun _ => Nat.le_refl _)

lemma idealInject_rxQueue (s : Sched) (ds : Nat → Nat) :
    (idealInject s ds).rxQueue = s.rxQueue :=
  idealInjectLoop_rxQueue ds s.txQueue 0 s

/-- The Ideal scheduler's transmission phase adds exactly `len(activeMessages)`
packets to the delay queue. -/
lemma idealInject_length (s : Sched) (ds : Nat → Nat) :
    (idealInject s ds).delayQueue.length
      = s.delayQueue.length + s.txQueue.length :=
  idealInjectLoop_length ds s.txQueue 0 s

/-! ### Queue order invariants -/

/-- The transmit queue's sort invariant: ascending remaining message size. -/
def txSorted (q : List Msg) : Prop := q.Pairwise (fun a b => a.size ≤ b.size)

/-- The delay queue's sort invariant: ascending remaining delay. -/
def delaySorted (q : List DelayedPkt) : Prop := q.Pairwise (fun a b => a.delay ≤ b.delay)

/-- The receive queue's sort invariant: ascending packet priority. -/
def rxSorted (q : List Pkt) : Prop := q.Pairwise (fun a b => a.prio ≤ b.prio)

/-- All three queue sort invariants together. -/
def SortedSched (s : Sched) : Prop :=
  txSorted s.txQueue ∧ delaySorted s.delayQueue ∧ rxSorted s.rxQueue

instance : IsTotal Msg (fun a b => a.size ≤ b.size) := ⟨fun a b => le_total a.size b.size⟩

instance : IsTrans Msg (fun a b => a.size ≤ b.size) :=
  ⟨fun _ _ _ h1 h2 => le_trans h1 h2⟩

instance : IsTotal DelayedPkt (fun a b => a.delay ≤ b.delay) :=
  ⟨fun a b => le_total a.delay b.delay⟩

instance : IsTrans DelayedPkt (fun a b => a.delay ≤ b.delay) :=
  ⟨fun _ _ _ h1 h2 => le_trans h1 h2⟩

instance : IsTotal Pkt (fun a b => a.prio ≤ b.prio) := ⟨fun a b => le_total a.prio b.prio⟩

instance : IsTrans Pkt (fun a b => a.prio ≤ b.prio) :=
  ⟨fun _ _ _ h1 h2 => le_trans h1 h2⟩

lemma sortBySize_sorted (q : List Msg) : txSorted (sortBySize q) :=
  List.sorted_insertionSort _ q

lemma sortByDelay_sorted (q : List DelayedPkt) : delaySorted (sortByDelay q) :=
  List.sorted_insertionSort _ q

lemma sortByPrio_sorted (q : List Pkt) : rxSorted (sortByPrio q) :=
  List.sorted_insertionSort _ q

/-- The per-message transformation performed by one Ideal injection round on
the transmit queue: a size-1 message is removed, any other has its size
decremented. -/
def stepMsg (m : Msg) : Option Msg :=
  if m.size = 1 then none else some ⟨m.id, m.size - 1⟩

lemma removeFirstMsg_append_not_mem {pre : List Msg} {m : Msg}
    (rest : List Msg) (h : ∀ p ∈ pre, ¬ p = m) :
    removeFirstMsg (pre ++ m :: rest) m = pre ++ rest := by
  induction pre with
  | nil => simp [removeFirstMsg]
  | cons x xs ih =>
      have hx : ¬ x = m := h x (List.mem_cons_self _ _)
      simp only [List.cons_append, removeFirstMsg_cons_ne _ hx]
      rw [ih (fun p hp => h p (List.mem_cons_of_mem _ hp))]

lemma decFirstMsg_append_not_mem {pre : List Msg} {m : Msg}
    (rest : List Msg) (h : ∀ p ∈ pre, ¬ p = m) :
    decFirstMsg (pre ++ m :: rest) m = pre ++ ⟨m.id, m.size - 1⟩ :: rest := by
  induction pre with
  | nil => simp [decFirstMsg]
  | cons x xs ih =>
      have hx : ¬ x = m := h x (List.mem_cons_self _ _)
      simp only [List.cons_append, decFirstMsg_cons_ne _ hx]
      rw [ih (fun p hp => h p (List.mem_cons_of_mem _ hp))]

/-- Positional characterization of the Ideal injection loop's effect on the
transmit queue.  The hypotheses (the live queue is the already-transformed
prefix followed by the untouched snapshot suffix, no transformed-prefix value
equals a pending snapshot value, and the snapshot is sorted by size) hold at
loop entry for a size-sorted queue and are maintained by each round. -/
lemma idealInjectLoop_txQueue_char (ds : Nat → Nat) :
    ∀ (msgs : List Msg) (i : Nat) (s : Sched) (pre : List Msg),
      s.txQueue = pre ++ msgs →
      (∀ m ∈ msgs, ∀ p ∈ pre, ¬ p = m) →
      msgs.Pairwise (fun a b => a.size ≤ b.size) →
      (idealInjectLoop ds msgs i s).txQueue = pre ++ msgs.filterMap stepMsg := by
  intro msgs
  induction msgs with
  | nil => intro i s pre hq _ _; simpa [idealInjectLoop] using hq
  | cons m rest ih =>
      intro i s pre hq hdisj hsort
      by_cases hz : m.size = 1
      · rw [idealInjectLoop]
        simp only [hz, if_pos]
        have hrm : (addPktToDelayQueue s ⟨m.id, m.size, m.size⟩ (ds i)).txQueue
            = pre ++ m :: rest := hq
        rw [ih (i + 1) _ pre]
        · simp [stepMsg, hz]
        · show removeFirstMsg (addPktToDelayQueue s ⟨m.id, 1, 1⟩ (ds i)).txQueue m
            = pre ++ rest
          have : (addPktToDelayQueue s ⟨m.id, 1, 1⟩ (ds i)).txQueue = pre ++ m :: rest := hq
          rw [this, removeFirstMsg_append_not_mem rest
            (fun p hp => hdisj m (List.mem_cons_self _ _) p hp)]
        · intro m2 hm2 p hp
          exact hdisj m2 (List.mem_cons_of_mem _ hm2) p hp
        · exact hsort.of_cons
      · rw [idealInjectLoop]
        simp only [hz, if_neg, if_false]
        rw [ih (i + 1) _ (pre ++ [⟨m.id, m.size - 1⟩])]
        · simp [stepMsg, hz]
        · show decFirstMsg (addPktToDelayQueue s ⟨m.id, m.size, m.size⟩ (ds i)).txQueue m
            = (pre ++ [⟨m.id, m.size - 1⟩]) ++ rest
          have : (addPktToDelayQueue s ⟨m.id, m.size, m.size⟩ (ds i)).txQueue
              = pre ++ m :: rest := hq
          rw [this, decFirstMsg_append_not_mem rest
            (fun p hp => hdisj m (List.mem_cons_self _ _) p hp)]
          simp
        · intro m2 hm2 p hp
          rcases List.mem_append.mp hp with hp1 | hp2
          · exact hdisj m2 (List.mem_cons_of_mem _ hm2) p hp1
          · have hpm : p = (⟨m.id, m.size - 1⟩ : Msg) := List.mem_singleton.mp hp2
            intro hpe
            have hle : m.size ≤ m2.size := List.rel_of_pairwise_cons hsort hm2
            have : m2.size = m.size - 1 := by
              rw [← hpe, hpm]
            omega
        · exact hsort.of_cons

/-- On a size-sorted transmit queue the Ideal injection phase acts as the
per-message map `stepMsg`. -/
lemma idealInject_txQueue_char (s : Sched) (ds : Nat → Nat) (h : txSorted s.txQueue) :
    (idealInject s ds).txQueue = s.txQueue.filterMap stepMsg := by
  have := idealInjectLoop_txQueue_char ds s.txQueue 0 s [] rfl (by simp) h
  simpa using this

/-- Arrival insertion re-sorts the transmit queue and touches nothing else, so
it preserves all three sort invariants. -/
lemma insertTx_sorted (s : Sched) (id : Nat) (sz : Int) (h : SortedSched s) :
    SortedSched (insertTx s id sz) :=
  ⟨sortBySize_sorted _, h.2.1, h.2.2⟩

lemma addPktToDelayQueueRaw_sorted (s : Sched) (pkt : Pkt) (d : Nat)
    (h : SortedSched s) : SortedSched (addPktToDelayQueueRaw s pkt d) :=
  ⟨h.1, sortByDelay_sorted _, h.2.2⟩

/-- Decrementing the head message's size keeps the transmit queue sorted: the
head was a minimum and only got smaller.  The delay queue is re-sorted on
insertion; the receive queue is untouched. -/
lemma simpleInject_sorted (s : Sched) (d : Nat) (h : SortedSched s) :
    SortedSched (simpleInject s d) := by
  rcases h with ⟨htx, hdq, hrx⟩
  cases hq : s.txQueue with
  | nil =>
      simp only [simpleInject, hq]
      exact ⟨htx, hdq, hrx⟩
  | cons m rest =>
      rw [hq] at htx
      simp only [simpleInject, hq, addPktToDelayQueue, addPktToDelayQueueRaw]
      refine ⟨?_, sortByDelay_sorted _, hrx⟩
      simp only [txSorted] at htx ⊢
      by_cases hz : (⟨m.id, m.size - 1⟩ : Msg).size = 0
      · rw [if_pos hz]
        exact htx.of_cons
      · rw [if_neg hz]
        rw [List.pairwise_cons] at htx ⊢
        refine ⟨fun b hb => ?_, htx.2⟩
        have := htx.1 b hb
        simp only at this ⊢
        omega

/-- Depletion preserves all three sort invariants: released packets are
re-sorted into the receive queue, and the uniform decrement of the remaining
delays preserves their relative order. -/
lemma depleteDelayQueue_sorted (s : Sched) (h : SortedSched s) :
    SortedSched (depleteDelayQueue s) := by
  rcases h with ⟨htx, hdq, _⟩
  refine ⟨htx, ?_, sortByPrio_sorted _⟩
  show ((s.delayQueue.filter (fun p => ¬ p.delay = 0)).map
    (fun p => (⟨p.msgId, p.size, p.prio, p.delay - 1⟩ : DelayedPkt))).Pairwise _
  rw [List.pairwise_map]
  exact (hdq.filter _).imp (fun hab => Nat.sub_le_sub_right hab 1)

/-- Popping the head of the receive queue preserves all three sort
invariants. -/
lemma retireHead_sorted (slot : Nat) (s : Sched) (pot : PktOutTimes)
    (h : SortedSched s) : SortedSched (retireHead slot s pot).1 := by
  rcases h with ⟨htx, hdq, hrx⟩
  refine ⟨?_, ?_, ?_⟩
  · rw [retireHead_txQueue]; exact htx
  · rw [retireHead_delayQueue]; exact hdq
  · rw [retireHead_rxQueue]; exact hrx.drop

lemma idealInjectLoop_delaySorted (ds : Nat → Nat) :
    ∀ (msgs : List Msg) (i : Nat) (s : Sched),
      delaySorted s.delayQueue →
      delaySorted (idealInjectLoop ds msgs i s).delayQueue := by
  intro msgs
  induction msgs with
  | nil => intro i s h; exact h
  | cons m rest ih =>
      intro i s h
      rw [idealInjectLoop]
      by_cases hz : m.size = 1 <;>
        simp only [hz, if_pos, if_neg, if_false] <;>
          exact ih _ _ (sortByDelay_sorted _)

/-- The Ideal scheduler's injection phase preserves all three sort invariants;
in particular the transmit queue stays size-sorted under the uniform
decrement, without any re-sort. -/
lemma idealInject_sorted (s : Sched) (ds : Nat → Nat) (h : SortedSched s) :
    SortedSched (idealInject s ds) := by
  rcases h with ⟨htx, hdq, hrx⟩
  refine ⟨?_, ?_, ?_⟩
  · rw [show txSorted (idealInject s ds).txQueue
      = txSorted (s.txQueue.filterMap stepMsg) from by
        rw [idealInject_txQueue_char s ds htx]]
    simp only [txSorted] at htx ⊢
    rw [List.pairwise_filterMap]
    refine htx.imp ?_
    intro a b hab x hx y hy
    simp only [stepMsg] at hx hy
    by_cases ha : a.size = 1 <;> by_cases hb : b.size = 1 <;>
      simp [ha, hb] at hx hy
    rw [← hx, ← hy]
    simp
    omega
  · exact idealInjectLoop_delaySorted ds s.txQueue 0 s hdq
  · rw [idealInject_rxQueue]; exact hrx

/-! ### The simulation driver `run` -/

/-- One row of the message table `msgDict`: the Python entry
`msgDict[id] = [size, arrivalSlot]`, with its key made explicit.  Rows are
kept in insertion order, so ids are sequential from 0. -/
structure MsgEntry where
  id : Nat
  size : Int
  arrivalSlot : Nat
deriving Repr, DecidableEq

/-- One slot's random draws for the Simple (trace-establishing) run:
`arrival` is `some size` when the coin `random.random() < probPerSlot` comes
up heads (with `size` the value drawn through `generateMsgSize`), `none`
otherwise; `ds i` is the Poisson sample consumed by the slot's `i`-th packet
injection. -/
structure SlotIn where
  arrival : Option Int
  ds : Nat → Nat

/-- Driver state for the Simple run: the scheduler's queues, the message
table built so far, the next fresh message id, the departure records and the
slot counter. -/
structure SimState where
  sched : Sched
  msgDict : List MsgEntry
  nextId : Nat
  pot : PktOutTimes
  slot : Nat

/-- The driver's initial state: freshly allocated empty queues. -/
def initSimState : SimState := ⟨⟨[], [], []⟩, [], 0, emptyPot, 0⟩

/-- One slot of the Simple run.  Arrival-phase slots may carry an arrival
draw; drain-phase slots have `arrival = none` (the Python `while` loop runs
the same body without the arrival check). -/
def simpleSlot (st : SimState) (inp : SlotIn) : SimState :=
  let st1 : SimState := match inp.arrival with
    | none => st
    | some sz =>
        { st with sched := insertTx st.sched st.nextId sz,
                  msgDict := st.msgDict ++ [⟨st.nextId, sz, st.slot⟩],
                  nextId := st.nextId + 1 }
  let out := simpleScheduler st1.slot st1.sched st1.pot (inp.ds 0)
  { st1 with sched := out.1, pot := out.2, slot := st1.slot + 1 }

/-- The Simple run: fold `simpleSlot` over the per-slot draws, starting from
empty queues at slot 0.  A list covering `steps` arrival-phase slots followed
by drain slots with `arrival = none` models `run`'s first two loops up to any
point (the Python drain stops once all queues are empty; further slots are
no-ops there). -/
def runSimple (inputs : List SlotIn) : SimState :=
  inputs.foldl simpleSlot initSimState

/-- Driver state for the Ideal (replay) run; `inserted` is the trace of
messages the replay has inserted into the transmit queue, with the slot at
which each insertion happened. -/
structure IdealState where
  sched : Sched
  nextId : Nat
  pot : PktOutTimes
  slot : Nat
  inserted : List MsgEntry

/-- Initial state of the Ideal run (fresh empty queues, slot 0). -/
def initIdealState : IdealState := ⟨⟨[], [], []⟩, 0, emptyPot, 0, []⟩

/-- Python's `msgId in msgDict` plus `msgDict[msgId]`: look the id up in the
message table. -/
def lookupMsg (dict : List MsgEntry) (id : Nat) : Option MsgEntry :=
  dict.find? (fun e => e.id = id)

/-- One slot of the Ideal run.  During the replay loop (`checkArrival =
true`) a message is inserted when the next sequential id is recorded with the
current slot as its arrival slot; the drain loop (`checkArrival = false`)
invokes the scheduler alone.  `ds` provides the slot's Poisson samples. -/
def idealSlot (dict : List MsgEntry) (st : IdealState) (checkArrival : Bool)
    (ds : Nat → Nat) : IdealState :=
  let st1 : IdealState := if checkArrival then
      match lookupMsg dict st.nextId with
      | some e =>
          if e.arrivalSlot = st.slot then
            { st with sched := insertTx st.sched e.id e.size,
                      nextId := st.nextId + 1,
                      inserted := st.inserted ++ [⟨e.id, e.size, st.slot⟩] }
          else st
      | none => st
    else st
  let out := idealScheduler st1.slot st1.sched st1.pot ds
  { st1 with sched := out.1, pot := out.2, slot := st1.slot + 1 }

/-- The Ideal run over a recorded message table: fold `idealSlot` over the
slots (`checkArrival` is true for the `range(steps)` replay slots, false for
drain slots). -/
def runIdeal (dict : List MsgEntry) (inputs : List (Bool × (Nat → Nat))) : IdealState :=
  inputs.foldl (fun st inp => idealSlot dict st inp.1 inp.2) initIdealState

-- sanity: a 3-slot Simple run with one size-2 arrival at slot 0 and all
-- Poisson samples 0 retires the first packet at slot 1
example :
    ((runSimple ([⟨some 2, fun _ => 0⟩, ⟨none, fun _ => 0⟩, ⟨none, fun _ => 0⟩] :
        List SlotIn)).pot 0)
      = [⟨1, 0, 2⟩, ⟨2, 0, 1⟩] := by decide

example :
    (runIdeal [⟨0, 2, 0⟩] [(true, fun _ => 0), (false, fun _ => 0), (false, fun _ => 0)]).pot 0
      = [⟨1, 2, 2⟩, ⟨2, 1, 1⟩] := by decide

example :
    (runIdeal [⟨0, 2, 0⟩] [(true, fun _ => 0), (false, fun _ => 0)]).inserted
      = [⟨0, 2, 0⟩] := by decide

/-! ### The per-message mass invariant -/

/-- Number of transmit-queue messages carrying a given id. -/
def txCount (id : Nat) (q : List Msg) : Nat := q.countP (fun m => m.id = id)

/-- The total mass of message `id` across the three queues and the departure
records: remaining transmit size, plus one unit per delay-queue packet, per
receive-queue packet and per recorded departure. -/
def massSim (id : Nat) (sch : Sched) (pot : PktOutTimes) : Int :=
  txMass id sch.txQueue + delayCount id sch.delayQueue + rxCount id sch.rxQueue
    + ((pot id).length : Int)

/-- Message id `id` appears nowhere: not in any queue and not in the records. -/
def NoTrace (id : Nat) (sch : Sched) (pot : PktOutTimes) : Prop :=
  txCount id sch.txQueue = 0 ∧ delayCount id sch.delayQueue = 0 ∧
    rxCount id sch.rxQueue = 0 ∧ pot id = []

lemma txMass_eq_zero_of_txCount (id : Nat) (q : List Msg) (h : txCount id q = 0) :
    txMass id q = 0 := by
  have : q.filter (fun m => m.id = id) = [] := by
    rw [← List.length_eq_zero]
    rw [← List.countP_eq_length_filter]
    exact h
  simp [txMass, this]

lemma txCount_cons (id : Nat) (x : Msg) (xs : List Msg) :
    txCount id (x :: xs) = (if x.id = id then 1 else 0) + txCount id xs := by
  by_cases h : x.id = id <;> simp [txCount, List.countP_cons, h] <;> omega

lemma txCount_perm (id : Nat) {q q' : List Msg} (h : q.Perm q') :
    txCount id q = txCount id q' :=
  h.countP_eq _

lemma txCount_sortBySize (id : Nat) (q : List Msg) :
    txCount id (sortBySize q) = txCount id q :=
  txCount_perm id (List.perm_insertionSort _ q)

lemma txCount_append (id : Nat) (xs ys : List Msg) :
    txCount id (xs ++ ys) = txCount id xs + txCount id ys := by
  simp [txCount, List.countP_append]

/-- A Simple-scheduler invocation conserves every message's total mass. -/
lemma simpleScheduler_mass (slot : Nat) (s : Sched) (pot : PktOutTimes)
    (d : Nat) (id : Nat) :
    massSim id (simpleScheduler slot s pot d).1 (simpleScheduler slot s pot d).2
      = massSim id s pot := by
  unfold simpleScheduler massSim
  have h1 := simpleInject_mass id s d
  have h2 := simpleInject_rxQueue s d
  have h3 := depleteDelayQueue_mass id (simpleInject s d)
  have h4 := depleteDelayQueue_txQueue (simpleInject s d)
  have h5 := retireHead_mass id slot (depleteDelayQueue (simpleInject s d)) pot
  have h6 := retireHead_txQueue slot (depleteDelayQueue (simpleInject s d)) pot
  have h7 := retireHead_delayQueue slot (depleteDelayQueue (simpleInject s d)) pot
  rw [h6, h7, h4, h2] at *
  omega

/-- An Ideal-scheduler invocation conserves every message's total mass. -/
lemma idealScheduler_mass (slot : Nat) (s : Sched) (pot : PktOutTimes)
    (ds : Nat → Nat) (id : Nat) :
    massSim id (idealScheduler slot s pot ds).1 (idealScheduler slot s pot ds).2
      = massSim id s pot := by
  unfold idealScheduler massSim
  have h1 := idealInject_mass id s ds
  have h2 := idealInject_rxQueue s ds
  have h3 := depleteDelayQueue_mass id (idealInject s ds)
  have h4 := depleteDelayQueue_txQueue (idealInject s ds)
  have h5 := retireHead_mass id slot (depleteDelayQueue (idealInject s ds)) pot
  have h6 := retireHead_txQueue slot (depleteDelayQueue (idealInject s ds)) pot
  have h7 := retireHead_delayQueue slot (depleteDelayQueue (idealInject s ds)) pot
  rw [h6, h7, h4, h2] at *
  omega

lemma simpleInject_noTrace (id : Nat) (s : Sched) (d : Nat)
    (h1 : txCount id s.txQueue = 0) (h2 : delayCount id s.delayQueue = 0) :
    txCount id (simpleInject s d).txQueue = 0
      ∧ delayCount id (simpleInject s d).delayQueue = 0 := by
  cases hq : s.txQueue with
  | nil => exact ⟨by simpa [simpleInject, hq] using h1, by simpa [simpleInject, hq] using h2⟩
  | cons m rest =>
      rw [hq, txCount_cons] at h1
      have hid : ¬ m.id = id := by
        intro hh
        simp [hh] at h1
      simp only [simpleInject, hq, addPktToDelayQueue, addPktToDelayQueueRaw]
      constructor
      · by_cases hz : (⟨m.id, m.size - 1⟩ : Msg).size = 0
        · rw [if_pos hz]; omega
        · rw [if_neg hz, txCount_cons]
          simp [hid]
          omega
      · rw [delayCount_sortByDelay, delayCount_append, delayCount_cons]
        simp [hid, delayCount_nil]
        omega

lemma txCount_filterMap_stepMsg (id : Nat) (q : List Msg) :
    txCount id (q.filterMap stepMsg) ≤ txCount id q := by
  induction q with
  | nil => simp [txCount]
  | cons m rest ih =>
      rw [txCount_cons]
      by_cases hz : m.size = 1
      · simp only [List.filterMap_cons, stepMsg, hz, if_pos]
        omega
      · simp only [List.filterMap_cons, stepMsg, hz, if_neg, if_false]
        rw [txCount_cons]
        simp only
        omega

lemma idealInject_noTrace (id : Nat) (s : Sched) (ds : Nat → Nat)
    (hsort : txSorted s.txQueue)
    (h1 : txCount id s.txQueue = 0) (h2 : delayCount id s.delayQueue = 0) :
    txCount id (idealInject s ds).txQueue = 0
      ∧ delayCount id (idealInject s ds).delayQueue = 0 := by
  constructor
  · rw [idealInject_txQueue_char s ds hsort]
    have := txCount_filterMap_stepMsg id s.txQueue
    omega
  · rw [show (idealInject s ds).delayQueue
        = (idealInjectLoop ds s.txQueue 0 s).delayQueue from rfl,
      idealInjectLoop_delayCount]
    have : s.txQueue.countP (fun m => m.id = id) = 0 := h1
    omega

/-- A Simple-scheduler invocation introduces no trace of an id that had
none. -/
lemma simpleScheduler_noTrace (slot : Nat) (s : Sched) (pot : PktOutTimes)
    (d : Nat) (id : Nat) (h : NoTrace id s pot) :
    NoTrace id (simpleScheduler slot s pot d).1 (simpleScheduler slot s pot d).2 := by
  obtain ⟨h1, h2, h3, h4⟩ := h
  obtain ⟨g1, g2⟩ := simpleInject_noTrace id s d h1 h2
  have g3 : rxCount id (simpleInject s d).rxQueue = 0 := by
    rw [simpleInject_rxQueue]; exact h3
  have d1 : txCount id (depleteDelayQueue (simpleInject s d)).txQueue = 0 := by
    rw [depleteDelayQueue_txQueue]; exact g1
  have dmass := depleteDelayQueue_mass id (simpleInject s d)
  have d2 : delayCount id (depleteDelayQueue (simpleInject s d)).delayQueue = 0 := by omega
  have d3 : rxCount id (depleteDelayQueue (simpleInject s d)).rxQueue = 0 := by omega
  have rmass := retireHead_mass id slot (depleteDelayQueue (simpleInject s d)) pot
  rw [h4] at rmass
  simp only [List.length_nil] at rmass
  refine ⟨?_, ?_, ?_, ?_⟩
  · rw [show (simpleScheduler slot s pot d).1
      = (retireHead slot (depleteDelayQueue (simpleInject s d)) pot).1 from rfl,
      retireHead_txQueue]
    exact d1
  · rw [show (simpleScheduler slot s pot d).1
      = (retireHead slot (depleteDelayQueue (simpleInject s d)) pot).1 from rfl,
      retireHead_delayQueue]
    exact d2
  · show rxCount id (retireHead slot (depleteDelayQueue (simpleInject s d)) pot).1.rxQueue = 0
    omega
  · show (retireHead slot (depleteDelayQueue (simpleInject s d)) pot).2 id = []
    rw [← List.length_eq_zero]
    omega

/-- An Ideal-scheduler invocation introduces no trace of an id that had none
(on a size-sorted transmit queue). -/
lemma idealScheduler_noTrace (slot : Nat) (s : Sched) (pot : PktOutTimes)
    (ds : Nat → Nat) (id : Nat) (hsort : txSorted s.txQueue) (h : NoTrace id s pot) :
    NoTrace id (idealScheduler slot s pot ds).1 (idealScheduler slot s pot ds).2 := by
  obtain ⟨h1, h2, h3, h4⟩ := h
  obtain ⟨g1, g2⟩ := idealInject_noTrace id s ds hsort h1 h2
  have g3 : rxCount id (idealInject s ds).rxQueue = 0 := by
    rw [idealInject_rxQueue]; exact h3
  have d1 : txCount id (depleteDelayQueue (idealInject s ds)).txQueue = 0 := by
    rw [depleteDelayQueue_txQueue]; exact g1
  have dmass := depleteDelayQueue_mass id (idealInject s ds)
  have d2 : delayCount id (depleteDelayQueue (idealInject s ds)).delayQueue = 0 := by omega
  have d3 : rxCount id (depleteDelayQueue (idealInject s ds)).rxQueue = 0 := by omega
  have rmass := retireHead_mass id slot (depleteDelayQueue (idealInject s ds)) pot
  rw [h4] at rmass
  simp only [List.length_nil] at rmass
  refine ⟨?_, ?_, ?_, ?_⟩
  · rw [show (idealScheduler slot s pot ds).1
      = (retireHead slot (depleteDelayQueue (idealInject s ds)) pot).1 from rfl,
      retireHead_txQueue]
    exact d1
  · rw [show (idealScheduler slot s pot ds).1
      = (retireHead slot (depleteDelayQueue (idealInject s ds)) pot).1 from rfl,
      retireHead_delayQueue]
    exact d2
  · show rxCount id (retireHead slot (depleteDelayQueue (idealInject s ds)) pot).1.rxQueue = 0
    omega
  · show (retireHead slot (depleteDelayQueue (idealInject s ds)) pot).2 id = []
    rw [← List.length_eq_zero]
    omega

/-! ### Departure-record slot monotonicity -/

/-- Retirement at the current slot keeps every record list's slots strictly
increasing and bounded by the next slot, provided all existing records are
from earlier slots. -/
lemma retireHead_recSlots (slot : Nat) (s : Sched) (pot : PktOutTimes)
    (hrec : ∀ id, ((pot id).map DepRec.slot).Pairwise (· < ·))
    (hlt : ∀ id, ∀ r ∈ pot id, r.slot < slot) :
    (∀ id, (((retireHead slot s pot).2 id).map DepRec.slot).Pairwise (· < ·))
      ∧ (∀ id, ∀ r ∈ (retireHead slot s pot).2 id, r.slot < slot + 1) := by
  cases hq : s.rxQueue with
  | nil =>
      refine ⟨fun id => by simpa [retireHead, hq] using hrec id, fun id r hr => ?_⟩
      have : r ∈ pot id := by simpa [retireHead, hq] using hr
      exact Nat.lt_succ_of_lt (hlt id r this)
  | cons p rest =>
      constructor
      · intro id
        by_cases hid : id = p.msgId
        · simp only [retireHead, hq, recordPkt, hid, if_pos]
          rw [List.map_append]
          rw [List.pairwise_append]
          refine ⟨hrec p.msgId, by simp, ?_⟩
          intro a ha b hb
          simp only [List.map_map, List.mem_map] at ha
          obtain ⟨r, hr, hra⟩ := ha
          simp only [List.mem_map, List.mem_singleton] at hb
          obtain ⟨r2, hr2, hrb⟩ := hb
          rw [hr2] at hrb
          rw [← hra, ← hrb]
          exact hlt p.msgId r hr
        · simpa [retireHead, hq, recordPkt, hid] using hrec id
      · intro id r hr
        by_cases hid : id = p.msgId
        · rw [hid] at hr
          simp only [retireHead, hq, recordPkt, if_pos] at hr
          rcases List.mem_append.mp hr with hr1 | hr2
          · exact Nat.lt_succ_of_lt (hlt p.msgId r hr1)
          · rw [List.mem_singleton.mp hr2]
            exact Nat.lt_succ_self slot
        · have : r ∈ pot id := by simpa [retireHead, hq, recordPkt, hid] using hr
          exact Nat.lt_succ_of_lt (hlt id r this)

/-! ### The Simple run's global invariant -/

/-- Everything that holds of the Simple run's state at every slot boundary:
sequential ids, strictly increasing recorded arrival slots bounded by the slot
counter, per-message mass conservation, absence of not-yet-generated ids,
sorted queues, and strictly increasing departure-record slots bounded by the
slot counter. -/
structure SimInv (st : SimState) : Prop where
  ids : st.msgDict.map MsgEntry.id = List.range st.nextId
  slotsLt : ∀ e ∈ st.msgDict, e.arrivalSlot < st.slot
  slotsMono : st.msgDict.Pairwise (fun a b => a.arrivalSlot < b.arrivalSlot)
  conserved : ∀ e ∈ st.msgDict, massSim e.id st.sched st.pot = e.size
  fresh : ∀ id, st.nextId ≤ id → NoTrace id st.sched st.pot
  sorted : SortedSched st.sched
  recMono : ∀ id, ((st.pot id).map DepRec.slot).Pairwise (· < ·)
  recLt : ∀ id, ∀ r ∈ st.pot id, r.slot < st.slot

/-- A Simple-scheduler invocation preserves the three sort invariants. -/
lemma simpleScheduler_sorted (slot : Nat) (s : Sched) (pot : PktOutTimes) (d : Nat)
    (h : SortedSched s) : SortedSched (simpleScheduler slot s pot d).1 :=
  retireHead_sorted _ _ _ (depleteDelayQueue_sorted _ (simpleInject_sorted _ _ h))

/-- An Ideal-scheduler invocation preserves the three sort invariants. -/
lemma idealScheduler_sorted (slot : Nat) (s : Sched) (pot : PktOutTimes) (ds : Nat → Nat)
    (h : SortedSched s) : SortedSched (idealScheduler slot s pot ds).1 :=
  retireHead_sorted _ _ _ (depleteDelayQueue_sorted _ (idealInject_sorted _ _ h))

lemma initSimState_inv : SimInv initSimState := by
  refine ⟨rfl, ?_, ?_, ?_, ?_, ?_, ?_, ?_⟩ <;>
    simp [initSimState, emptyPot, NoTrace, txCount, delayCount, rxCount,
      SortedSched, txSorted, delaySorted, rxSorted]

lemma simpleSlot_inv (st : SimState) (inp : SlotIn) (h : SimInv st) :
    SimInv (simpleSlot st inp) := by
  obtain ⟨hids, hslt, hsmono, hcon, hfresh, hsort, hrmono, hrlt⟩ := h
  -- facts about the post-arrival state st1
  unfold simpleSlot
  set st1 : SimState := match inp.arrival with
    | none => st
    | some sz =>
        { st with sched := insertTx st.sched st.nextId sz,
                  msgDict := st.msgDict ++ [⟨st.nextId, sz, st.slot⟩],
                  nextId := st.nextId + 1 } with hst1
  have h1ids : st1.msgDict.map MsgEntry.id = List.range st1.nextId := by
    cases harr : inp.arrival with
    | none => simpa [hst1, harr] using hids
    | some sz => simp [hst1, harr, hids, List.range_succ]
  have h1slot : st1.slot = st.slot := by
    cases harr : inp.arrival <;> simp [hst1, harr]
  have h1slotsLe : ∀ e ∈ st1.msgDict, e.arrivalSlot ≤ st.slot := by
    cases harr : inp.arrival with
    | none =>
        intro e he
        simp only [hst1, harr] at he
        exact Nat.le_of_lt (hslt e he)
    | some sz =>
        intro e he
        simp only [hst1, harr] at he
        rcases List.mem_append.mp he with h1 | h2
        · exact Nat.le_of_lt (hslt e h1)
        · rw [List.mem_singleton.mp h2]
  have h1smono : st1.msgDict.Pairwise (fun a b => a.arrivalSlot < b.arrivalSlot) := by
    cases harr : inp.arrival with
    | none => simpa [hst1, harr] using hsmono
    | some sz =>
        simp only [hst1, harr]
        rw [List.pairwise_append]
        refine ⟨hsmono, by simp, ?_⟩
        intro a ha b hb
        rw [List.mem_singleton.mp hb]
        exact hslt a ha
  have h1con : ∀ e ∈ st1.msgDict, massSim e.id st1.sched st1.pot = e.size := by
    cases harr : inp.arrival with
    | none =>
        intro e he
        simp only [hst1, harr] at he ⊢
        exact hcon e he
    | some sz =>
        intro e he
        simp only [hst1, harr] at he ⊢
        have hmassInsert : ∀ j : Nat,
            massSim j (insertTx st.sched st.nextId sz) st.pot
              = massSim j st.sched st.pot + (if st.nextId = j then sz else 0) := by
          intro j
          unfold massSim insertTx
          simp only
          rw [txMass_sortBySize, txMass_append, txMass_cons, txMass_nil]
          simp only
          omega
        rcases List.mem_append.mp he with h1 | h2
        · rw [hmassInsert e.id, hcon e h1]
          have : e.id < st.nextId := by
            have : e.id ∈ st.msgDict.map MsgEntry.id := List.mem_map_of_mem _ h1
            rw [hids] at this
            exact List.mem_range.mp this
          rw [if_neg (by omega)]
          omega
        · rw [List.mem_singleton.mp h2]
          simp only
          rw [hmassInsert st.nextId, if_pos rfl]
          have hz := hfresh st.nextId (Nat.le_refl _)
          obtain ⟨z1, z2, z3, z4⟩ := hz
          have := txMass_eq_zero_of_txCount _ _ z1
          unfold massSim
          rw [this, z2, z3, z4]
          simp
  have h1fresh : ∀ id, st1.nextId ≤ id → NoTrace id st1.sched st1.pot := by
    cases harr : inp.arrival with
    | none =>
        intro id hid
        simp only [hst1, harr]
        exact hfresh id (by simpa [hst1, harr] using hid)
    | some sz =>
        intro id hid
        simp only [hst1, harr] at hid ⊢
        have hge : st.nextId ≤ id := by omega
        obtain ⟨z1, z2, z3, z4⟩ := hfresh id hge
        refine ⟨?_, z2, z3, z4⟩
        unfold insertTx
        simp only
        rw [txCount_sortBySize, txCount_append, txCount_cons]
        simp only [txCount, List.countP_nil]
        rw [if_neg (show ¬ st.nextId = id from by omega)]
        simp only [txCount] at z1
        omega
  have h1sorted : SortedSched st1.sched := by
    cases harr : inp.arrival with
    | none => simpa [hst1, harr] using hsort
    | some sz =>
        simp only [hst1, harr]
        exact insertTx_sorted _ _ _ hsort
  have h1rlt : ∀ id, ∀ r ∈ st1.pot id, r.slot < st1.slot := by
    cases harr : inp.arrival with
    | none => simpa [hst1, harr] using hrlt
    | some sz => simpa [hst1, harr] using hrlt
  have h1rmono : ∀ id, ((st1.pot id).map DepRec.slot).Pairwise (· < ·) := by
    cases harr : inp.arrival with
    | none => simpa [hst1, harr] using hrmono
    | some sz => simpa [hst1, harr] using hrmono
  -- the scheduler invocation
  have hrec := retireHead_recSlots st1.slot
    (depleteDelayQueue (simpleInject st1.sched (inp.ds 0))) st1.pot h1rmono h1rlt
  refine ⟨h1ids, ?_, h1smono, ?_, ?_, ?_, ?_, ?_⟩
  · intro e he
    simp only at he ⊢
    have := h1slotsLe e he
    rw [h1slot]
    omega
  · intro e he
    simp only at he ⊢
    rw [simpleScheduler_mass]
    exact h1con e he
  · intro id hid
    simp only at hid ⊢
    exact simpleScheduler_noTrace _ _ _ _ _ (h1fresh id hid)
  · exact simpleScheduler_sorted _ _ _ _ h1sorted
  · intro id
    exact hrec.1 id
  · intro id r hr
    simp only at hr ⊢
    exact hrec.2 id r hr

/-- The Simple run's invariant holds at every slot boundary. -/
lemma runSimple_inv (inputs : List SlotIn) : SimInv (runSimple inputs) := by
  unfold runSimple
  have : ∀ (l : List SlotIn) (st : SimState), SimInv st → SimInv (l.foldl simpleSlot st) := by
    intro l
    induction l with
    | nil => intro st h; exact h
    | cons x xs ih => intro st h; exact ih _ (simpleSlot_inv st x h)
  exact this inputs initSimState initSimState_inv

/-! ### The Ideal run's global invariant -/

/-- With sequential ids `0, 1, …`, looking up id `n` finds exactly the table's
`n`-th row. -/
lemma lookupMsg_of_range (dict : List MsgEntry)
    (hids : dict.map MsgEntry.id = List.range dict.length) (n : Nat) :
    lookupMsg dict n = dict[n]? := by
  conv_lhs => rw [lookupMsg, ← List.take_append_drop n dict]
  rw [List.find?_append]
  have htake : List.find? (fun e => e.id = n) (dict.take n) = none := by
    rw [List.find?_eq_none]
    intro e he
    have hmem : e.id ∈ (dict.take n).map MsgEntry.id := List.mem_map_of_mem _ he
    rw [List.map_take, hids, List.take_range] at hmem
    have h2 := List.mem_range.mp hmem
    simp only [decide_eq_true_eq]
    omega
  rw [htake]
  rw [← List.head?_drop]
  cases hd : dict.drop n with
  | nil => simp
  | cons e rest =>
      have hid : e.id = n := by
        have hn : n < dict.length := by
          by_contra hcon
          push_neg at hcon
          rw [List.drop_eq_nil_of_le hcon] at hd
          cases hd
        have h1 : (dict.map MsgEntry.id)[n]? = some n := by
          rw [hids]
          exact List.getElem?_range hn
        rw [List.getElem?_map] at h1
        have h2 : dict[n]? = some e := by
          rw [← List.head?_drop, hd]
          rfl
        rw [h2] at h1
        simpa using h1
      simp [hid]

/-- What holds of the Ideal run's state at every slot boundary; `dict` is the
recorded message table being replayed. -/
structure IdealInv (dict : List MsgEntry) (st : IdealState) : Prop where
  le : st.nextId ≤ dict.length
  insertedEq : st.inserted = dict.take st.nextId
  takeLt : ∀ e ∈ dict.take st.nextId, e.arrivalSlot < st.slot
  conserved : ∀ e ∈ st.inserted, massSim e.id st.sched st.pot = e.size
  fresh : ∀ id, st.nextId ≤ id → NoTrace id st.sched st.pot
  sorted : SortedSched st.sched
  recMono : ∀ id, ((st.pot id).map DepRec.slot).Pairwise (· < ·)
  recLt : ∀ id, ∀ r ∈ st.pot id, r.slot < st.slot

lemma initIdealState_inv (dict : List MsgEntry) : IdealInv dict initIdealState := by
  refine ⟨Nat.zero_le _, rfl, ?_, ?_, ?_, ?_, ?_, ?_⟩ <;>
    simp [initIdealState, emptyPot, NoTrace, txCount, delayCount, rxCount,
      SortedSched, txSorted, delaySorted, rxSorted]

lemma idealSlot_inv (dict : List MsgEntry)
    (hids : dict.map MsgEntry.id = List.range dict.length)
    (st : IdealState) (check : Bool) (ds : Nat → Nat)
    (h : IdealInv dict st) : IdealInv dict (idealSlot dict st check ds) := by
  obtain ⟨hle, hins, htlt, hcon, hfresh, hsort, hrmono, hrlt⟩ := h
  unfold idealSlot
  set st1 : IdealState := if check then
      match lookupMsg dict st.nextId with
      | some e =>
          if e.arrivalSlot = st.slot then
            { st with sched := insertTx st.sched e.id e.size,
                      nextId := st.nextId + 1,
                      inserted := st.inserted ++ [⟨e.id, e.size, st.slot⟩] }
          else st
      | none => st
    else st with hst1
  -- case analysis on whether an insertion fires
  have hcases : st1 = st ∨
      ∃ e, lookupMsg dict st.nextId = some e ∧ e.arrivalSlot = st.slot ∧ check = true ∧
        st1 = { st with sched := insertTx st.sched e.id e.size,
                        nextId := st.nextId + 1,
                        inserted := st.inserted ++ [⟨e.id, e.size, st.slot⟩] } := by
    cases hc : check with
    | false => left; simp [hst1, hc]
    | true =>
        cases hl : lookupMsg dict st.nextId with
        | none => left; simp [hst1, hc, hl]
        | some e =>
            by_cases hslot : e.arrivalSlot = st.slot
            · right
              exact ⟨e, rfl, hslot, rfl, by simp [hst1, hc, hl, hslot]⟩
            · left; simp [hst1, hc, hl, hslot]
  -- facts about st1
  have h1 : st1.nextId ≤ dict.length ∧ st1.inserted = dict.take st1.nextId ∧
      (∀ e ∈ dict.take st1.nextId, e.arrivalSlot ≤ st.slot) ∧
      (∀ e ∈ st1.inserted, massSim e.id st1.sched st1.pot = e.size) ∧
      (∀ id, st1.nextId ≤ id → NoTrace id st1.sched st1.pot) ∧
      SortedSched st1.sched ∧ st1.pot = st.pot ∧ st1.slot = st.slot := by
    rcases hcases with heq | ⟨e, hl, hslot, hc, heq⟩
    · rw [heq]
      exact ⟨hle, hins, fun e he => Nat.le_of_lt (htlt e he), hcon, hfresh, hsort, rfl, rfl⟩
    · have hlook := lookupMsg_of_range dict hids st.nextId
      rw [hl] at hlook
      have hnlt : st.nextId < dict.length := by
        by_contra hcon2
        push_neg at hcon2
        rw [List.getElem?_eq_none (by omega)] at hlook
        cases hlook
      have heid : e.id = st.nextId := by
        have h1 : (dict.map MsgEntry.id)[st.nextId]? = some st.nextId := by
          rw [hids]; exact List.getElem?_range hnlt
        rw [List.getElem?_map, ← hlook] at h1
        simpa using h1
      have htake1 : dict.take (st.nextId + 1) = dict.take st.nextId ++ [e] := by
        rw [List.take_succ]
        congr 1
        rw [← hlook]
        rfl
      have hmassInsert : ∀ j : Nat,
          massSim j (insertTx st.sched e.id e.size) st.pot
            = massSim j st.sched st.pot + (if e.id = j then e.size else 0) := by
        intro j
        unfold massSim insertTx
        simp only
        rw [txMass_sortBySize, txMass_append, txMass_cons, txMass_nil]
        simp only
        omega
      rw [heq]
      refine ⟨show st.nextId + 1 ≤ dict.length by omega, ?_, ?_, ?_, ?_,
        insertTx_sorted _ _ _ hsort, rfl, rfl⟩
      · show st.inserted ++ [⟨e.id, e.size, st.slot⟩] = dict.take (st.nextId + 1)
        rw [htake1, hins]
        congr 1
        rw [← hslot]
      · intro e2 he2
        rw [htake1] at he2
        rcases List.mem_append.mp he2 with h2 | h2
        · exact Nat.le_of_lt (htlt e2 h2)
        · rw [List.mem_singleton.mp h2, hslot]
      · intro e2 he2
        simp only at he2 ⊢
        rcases List.mem_append.mp he2 with h2 | h2
        · rw [hmassInsert]
          have he2id : e2.id < st.nextId := by
            have : e2.id ∈ st.inserted.map MsgEntry.id := List.mem_map_of_mem _ h2
            rw [hins, List.map_take, hids, List.take_range] at this
            have := List.mem_range.mp this
            omega
          rw [if_neg (by omega)]
          rw [hcon e2 h2]
          omega
        · rw [List.mem_singleton.mp h2]
          simp only
          rw [hmassInsert e.id, if_pos rfl]
          obtain ⟨z1, z2, z3, z4⟩ := hfresh e.id (by omega)
          have hz := txMass_eq_zero_of_txCount _ _ z1
          unfold massSim
          rw [hz, z2, z3, z4]
          simp
      · intro id hid
        simp only at hid ⊢
        obtain ⟨z1, z2, z3, z4⟩ := hfresh id (by omega)
        refine ⟨?_, z2, z3, z4⟩
        unfold insertTx
        simp only
        rw [txCount_sortBySize, txCount_append, txCount_cons]
        simp only [txCount, List.countP_nil]
        rw [if_neg (show ¬ e.id = id from by omega)]
        simp only [txCount] at z1
        omega
  obtain ⟨g1, g2, g3, g4, g5, g6, g7, g8⟩ := h1
  have h1rlt : ∀ id, ∀ r ∈ st1.pot id, r.slot < st1.slot := by
    rw [g7, g8]; exact hrlt
  have h1rmono : ∀ id, ((st1.pot id).map DepRec.slot).Pairwise (· < ·) := by
    rw [g7]; exact hrmono
  have hrec := retireHead_recSlots st1.slot
    (depleteDelayQueue (idealInject st1.sched ds)) st1.pot h1rmono h1rlt
  refine ⟨g1, g2, ?_, ?_, ?_, ?_, ?_, ?_⟩
  · intro e he
    simp only at he ⊢
    have := g3 e he
    rw [g8]
    omega
  · intro e he
    simp only at he ⊢
    rw [idealScheduler_mass]
    exact g4 e he
  · intro id hid
    simp only at hid ⊢
    exact idealScheduler_noTrace _ _ _ _ _ g6.1 (g5 id hid)
  · exact idealScheduler_sorted _ _ _ _ g6
  · intro id
    exact hrec.1 id
  · intro id r hr
    simp only at hr ⊢
    exact hrec.2 id r hr

/-- The Ideal run's invariant holds at every slot boundary. -/
lemma runIdeal_inv (dict : List MsgEntry)
    (hids : dict.map MsgEntry.id = List.range dict.length)
    (inputs : List (Bool × (Nat → Nat))) : IdealInv dict (runIdeal dict inputs) := by
  unfold runIdeal
  have : ∀ (l : List (Bool × (Nat → Nat))) (st : IdealState), IdealInv dict st →
      IdealInv dict (l.foldl (fun st inp => idealSlot dict st inp.1 inp.2) st) := by
    intro l
    induction l with
    | nil => intro st h; exact h
    | cons x xs ih => intro st h; exact ih _ (idealSlot_inv dict hids st x.1 x.2 h)
  exact this inputs initIdealState (initIdealState_inv dict)

/-! ### Completeness of the replay loop -/

/-- During the replay loop, every not-yet-replayed table row still has its
arrival slot ahead of the slot counter (so no row is ever missed). -/
def DropGe (dict : List MsgEntry) (st : IdealState) : Prop :=
  ∀ e ∈ dict.drop st.nextId, st.slot ≤ e.arrivalSlot

lemma idealSlot_slot (dict : List MsgEntry) (st : IdealState) (check : Bool)
    (ds : Nat → Nat) : (idealSlot dict st check ds).slot = st.slot + 1 := by
  unfold idealSlot
  cases check with
  | false => rfl
  | true =>
      cases hl : lookupMsg dict st.nextId with
      | none => rfl
      | some e =>
          by_cases hslot : e.arrivalSlot = st.slot <;> simp [hslot]

lemma runSimple_slot (inputs : List SlotIn) : (runSimple inputs).slot = inputs.length := by
  unfold runSimple
  have : ∀ (l : List SlotIn) (st : SimState),
      (l.foldl simpleSlot st).slot = st.slot + l.length := by
    intro l
    induction l with
    | nil => intro st; simp
    | cons x xs ih =>
        intro st
        rw [List.foldl_cons, ih]
        have : (simpleSlot st x).slot = st.slot + 1 := by
          unfold simpleSlot
          cases harr : x.arrival <;> simp [harr]
        rw [this]
        simp only [List.length_cons]
        omega
  rw [this]
  simp [initSimState]

lemma idealSlot_nextId_of_some {dict : List MsgEntry} {st : IdealState} {e : MsgEntry}
    (ds : Nat → Nat) (hl : lookupMsg dict st.nextId = some e) :
    (idealSlot dict st true ds).nextId
      = if e.arrivalSlot = st.slot then st.nextId + 1 else st.nextId := by
  unfold idealSlot
  cases hl2 : lookupMsg dict st.nextId with
  | none => rw [hl2] at hl; cases hl
  | some e2 =>
      rw [hl2] at hl
      obtain rfl : e2 = e := by injection hl
      by_cases hslot : e2.arrivalSlot = st.slot <;> simp [hslot]

lemma idealSlot_nextId_of_none {dict : List MsgEntry} {st : IdealState}
    (ds : Nat → Nat) (hl : lookupMsg dict st.nextId = none) :
    (idealSlot dict st true ds).nextId = st.nextId := by
  unfold idealSlot
  cases hl2 : lookupMsg dict st.nextId with
  | none => rfl
  | some e2 => rw [hl2] at hl; cases hl

/-- A replay-loop slot (arrival check on) preserves the pointer bound,
provided ids are sequential and arrival slots strictly increase. -/
lemma idealSlot_dropGe (dict : List MsgEntry)
    (hids : dict.map MsgEntry.id = List.range dict.length)
    (hmono : dict.Pairwise (fun a b => a.arrivalSlot < b.arrivalSlot))
    (st : IdealState) (ds : Nat → Nat)
    (hinv : IdealInv dict st) (hd : DropGe dict st) :
    DropGe dict (idealSlot dict st true ds) := by
  have hlook := lookupMsg_of_range dict hids st.nextId
  unfold DropGe
  rw [idealSlot_slot]
  by_cases hn : st.nextId < dict.length
  · have hget : dict[st.nextId]? = some dict[st.nextId] := List.getElem?_eq_getElem hn
    have hdrop := List.drop_eq_getElem_cons hn
    set e := dict[st.nextId] with he
    have hl : lookupMsg dict st.nextId = some e := by rw [hlook, hget]
    have hmonoDrop : ∀ e2 ∈ dict.drop (st.nextId + 1), e.arrivalSlot < e2.arrivalSlot := by
      intro e2 he2
      have hpw : (dict.drop st.nextId).Pairwise (fun a b => a.arrivalSlot < b.arrivalSlot) :=
        hmono.drop
      rw [hdrop] at hpw
      exact List.rel_of_pairwise_cons hpw he2
    have hegeslot : st.slot ≤ e.arrivalSlot := by
      apply hd
      rw [hdrop]
      exact List.mem_cons_self _ _
    rw [idealSlot_nextId_of_some ds hl]
    by_cases hslot : e.arrivalSlot = st.slot
    · rw [if_pos hslot]
      intro e2 he2
      have := hmonoDrop e2 he2
      omega
    · rw [if_neg hslot]
      intro e2 he2
      rw [hdrop] at he2
      rcases List.mem_cons.mp he2 with h2 | h2
      · rw [h2]
        omega
      · have := hmonoDrop e2 h2
        omega
  · have hempty : dict.drop st.nextId = [] := List.drop_eq_nil_of_le (by omega)
    have hl : lookupMsg dict st.nextId = none := by
      rw [hlook, List.getElem?_eq_none (by omega)]
    rw [idealSlot_nextId_of_none ds hl]
    intro e2 he2
    rw [hempty] at he2
    cases he2

lemma idealSlot_nextId_eq (dict : List MsgEntry) (st : IdealState) (check : Bool)
    (ds : Nat → Nat) :
    (idealSlot dict st check ds).nextId = st.nextId
      ∨ (idealSlot dict st check ds).nextId = st.nextId + 1 := by
  unfold idealSlot
  cases check with
  | false => left; rfl
  | true =>
      cases hl : lookupMsg dict st.nextId with
      | none => left; rfl
      | some e =>
          by_cases hslot : e.arrivalSlot = st.slot
          · right; simp [hslot]
          · left; simp [hslot]

/-- After replaying `n ≥` (bound on all arrival slots) slots with the arrival
check on, every table row has been inserted: the insertion trace equals the
table itself. -/
lemma runIdeal_replay_complete (dict : List MsgEntry)
    (hids : dict.map MsgEntry.id = List.range dict.length)
    (hmono : dict.Pairwise (fun a b => a.arrivalSlot < b.arrivalSlot))
    (bound : Nat) (hbound : ∀ e ∈ dict, e.arrivalSlot < bound)
    (dss : List (Nat → Nat)) (hlen : bound ≤ dss.length) :
    (runIdeal dict (dss.map (fun d => (true, d)))).inserted = dict := by
  -- invariant plus pointer bound through the all-check fold, tracking the slot
  have step : ∀ (l : List (Nat → Nat)) (st : IdealState), IdealInv dict st → DropGe dict st →
      IdealInv dict ((l.map (fun d => (true, d))).foldl
          (fun st inp => idealSlot dict st inp.1 inp.2) st)
        ∧ DropGe dict ((l.map (fun d => (true, d))).foldl
          (fun st inp => idealSlot dict st inp.1 inp.2) st)
        ∧ ((l.map (fun d => (true, d))).foldl
          (fun st inp => idealSlot dict st inp.1 inp.2) st).slot = st.slot + l.length := by
    intro l
    induction l with
    | nil => intro st h1 h2; exact ⟨h1, h2, by simp⟩
    | cons x xs ih =>
        intro st h1 h2
        have h1' := idealSlot_inv dict hids st true x h1
        have h2' := idealSlot_dropGe dict hids hmono st x h1 h2
        obtain ⟨a1, a2, a3⟩ := ih (idealSlot dict st true x) h1' h2'
        refine ⟨a1, a2, ?_⟩
        simp only [List.map_cons, List.foldl_cons, List.length_cons] at a3 ⊢
        rw [a3, idealSlot_slot]
        omega
  obtain ⟨hinv, hdg, hslot⟩ := step dss initIdealState (initIdealState_inv dict)
    (by intro e he; exact Nat.zero_le _)
  set final := (dss.map (fun d => (true, d))).foldl
    (fun st inp => idealSlot dict st inp.1 inp.2) initIdealState with hfinal
  have hslotval : final.slot = dss.length := by
    rw [hslot]
    simp [initIdealState]
  have hdropnil : dict.drop final.nextId = [] := by
    cases hdr : dict.drop final.nextId with
    | nil => rfl
    | cons e rest =>
        have hmem : e ∈ dict.drop final.nextId := by rw [hdr]; exact List.mem_cons_self _ _
        have h1 := hdg e hmem
        have h2 : e ∈ dict := List.mem_of_mem_drop hmem
        have := hbound e h2
        omega
  have hnext : dict.length ≤ final.nextId := by
    by_contra hcon
    push_neg at hcon
    rw [List.drop_eq_nil_iff_le] at hdropnil
    omega
  have : final.nextId = dict.length := le_antisymm hinv.le hnext
  show final.inserted = dict
  rw [hinv.insertedEq, this, List.take_length]

/-! ### Python's `max` over a list of slot numbers -/

/-- Python's `max(pktTimes)` over a non-empty list of (non-negative) slot
numbers: folding `max` from 0 agrees with the built-in on non-empty lists. -/
def pyMax (l : List Nat) : Nat := l.foldl max 0

lemma foldl_max_init (a : Nat) (l : List Nat) : l.foldl max a = max a (l.foldl max 0) := by
  induction l generalizing a with
  | nil => simp
  | cons x xs ih =>
      simp only [List.foldl_cons]
      rw [ih (max a x), ih (max 0 x), Nat.zero_max, Nat.max_assoc]

lemma pyMax_cons (x : Nat) (l : List Nat) : pyMax (x :: l) = max x (pyMax l) := by
  unfold pyMax
  rw [List.foldl_cons, foldl_max_init, Nat.zero_max]

/-- In a strictly increasing list the last element is the maximum, so the
analyzer's `max`-based completion time agrees with the last-record reading. -/
lemma getLast_eq_pyMax :
    ∀ (l : List Nat), l.Pairwise (· < ·) → ∀ (h : l ≠ []), l.getLast h = pyMax l := by
  intro l
  induction l with
  | nil => intro _ h; exact absurd rfl h
  | cons x xs ih =>
      intro hpw h
      cases xs with
      | nil => simp [pyMax]
      | cons y ys =>
          have hne : (y :: ys) ≠ [] := by simp
          rw [List.getLast_cons hne, ih hpw.of_cons hne]
          -- pyMax (x :: l) = pyMax l since x is below the last element of l
          have hmem := List.getLast_mem hne
          have hlt : x < (y :: ys).getLast hne := List.rel_of_pairwise_cons hpw hmem
          rw [ih hpw.of_cons hne] at hlt
          conv_rhs => rw [pyMax_cons]
          rw [Nat.max_eq_right (Nat.le_of_lt hlt)]

/-! ### The penalty analyzer (`__main__` aggregation loop) -/

/-- A result store as the analyzer sees it: the keys present in
`pktOutTimes[scheduler]` with their record lists. -/
abbrev Store : Type := List (Nat × List DepRec)

/-- Completion time of one message in one store:
`max(pktTimes) - msgDict[key][1]`. -/
def completionTime (recs : List DepRec) (arrivalSlot : Nat) : Int :=
  (pyMax (recs.map DepRec.slot) : Int) - (arrivalSlot : Int)

/-- The analyzer's inner loop body over the keys of the Simple store,
accumulating `(penalty, numMsg)`.  A key absent from the Ideal store is
skipped.  A key missing from `msgDict` (Python `KeyError`) or a zero Ideal
completion time (Python `ZeroDivisionError`) aborts with no value. -/
def aggLoop (dict : List MsgEntry) (ideal : Store) :
    Store → (ℚ × Nat) → Option (ℚ × Nat)
  | [], acc => some acc
  | (key, recsS) :: rest, acc =>
      match (ideal.find? (fun kv => kv.1 = key)) with
      | none => aggLoop dict ideal rest acc
      | some kv =>
          match lookupMsg dict key with
          | none => none
          | some e =>
              let cS := completionTime recsS e.arrivalSlot
              let cI := completionTime kv.2 e.arrivalSlot
              if cI = 0 then none
              else aggLoop dict ideal rest
                (acc.1 + ((cS : ℚ) - (cI : ℚ)) / (cI : ℚ), acc.2 + 1)

/-- The analyzer's total-penalty aggregation: fold over the Simple store's
keys starting from `penalty = 0.0, numMsg = 0`. -/
def aggregate (dict : List MsgEntry) (simple ideal : Store) : Option (ℚ × Nat) :=
  aggLoop dict ideal simple (0, 0)

/-- The overall mean-penalty report `penalty/numMsg` written to the output
table; Python raises `ZeroDivisionError` when `numMsg = 0`. -/
def penaltyReport (dict : List MsgEntry) (simple ideal : Store) : Option ℚ :=
  match aggregate dict simple ideal with
  | none => none
  | some (pen, n) => if n = 0 then none else some (pen / (n : ℚ))

/-! ### `run`'s pre-simulation preamble -/

/-- The mean message size computed from the distribution table:
`sizeAvg += row[1] * (row[0] - prevProb)` with `prevProb` threaded through. -/
def sizeAvgLoop : List (ℚ × Int) → ℚ → ℚ → ℚ
  | [], acc, _ => acc
  | row :: rest, acc, prevProb => sizeAvgLoop rest (acc + (row.2 : ℚ) * (row.1 - prevProb)) row.1

/-- The `sizeAvg` value as computed at the top of `run`. -/
def sizeAvg (distMatrix : List (ℚ × Int)) : ℚ := sizeAvgLoop distMatrix 0 0

/-- The only computation `run` performs before its simulation loop:
`probPerSlot = rho / sizeAvg`, a `ZeroDivisionError` (no value) exactly when
the computed mean size is zero — e.g. for an empty table.  No other
configuration validation exists. -/
def probPerSlot (rho : ℚ) (distMatrix : List (ℚ × Int)) : Option ℚ :=
  if sizeAvg distMatrix = 0 then none else some (rho / sizeAvg distMatrix)

/-- The `run` function gated on its preamble: reaches the simulation loop (and produces the
Simple run over the supplied draws) unless the preamble divides by zero. -/
def runFromConfig (rho : ℚ) (distMatrix : List (ℚ × Int))
    (inputs : List SlotIn) : Option SimState :=
  match probPerSlot rho distMatrix with
  | none => none
  | some _ => some (runSimple inputs)

lemma runSimple_msgDict_ids (gen : List SlotIn) :
    (runSimple gen).msgDict.map MsgEntry.id
      = List.range (runSimple gen).msgDict.length := by
  have hids := (runSimple_inv gen).ids
  have hlen : (runSimple gen).msgDict.length = (runSimple gen).nextId := by
    have := congrArg List.length hids
    simpa using this
  rw [hlen, hids]

/-! ## Claim theorems -/

/-- C1 (counterexample): a packet injected into the delay queue with delay 0
at slot 5 is released to the receive queue by that same slot's depletion pass
(the delay queue is left empty: the packet was not decremented and held), and
the same slot's retirement even records its departure at slot 5 — contradicting
the claim that such a packet is decremented and never released before slot
T+1. -/
theorem delay_zero_released_same_slot :
    (depleteDelayQueue (addPktToDelayQueueRaw ⟨[], [], []⟩ ⟨0, 1, 0⟩ 0)).rxQueue
        = [⟨0, 1, 0⟩]
      ∧ (depleteDelayQueue (addPktToDelayQueueRaw ⟨[], [], []⟩ ⟨0, 1, 0⟩ 0)).delayQueue
        = []
      ∧ (retireHead 5 (depleteDelayQueue (addPktToDelayQueueRaw ⟨[], [], []⟩ ⟨0, 1, 0⟩ 0))
          emptyPot).2 0 = [⟨5, 0, 1⟩] := by
  decide

/-- C1 (amended): `depleteDelayQueue` releases the packets whose remaining
delay is 0 before applying the per-slot decrement to the others, so a packet
already at delay 0 when depletion runs is released in that very pass, not
decremented.  The one-slot minimum nonetheless holds for packets injected by
the schedulers, because `addPktToDelayQueue` assigns
`delay = poissonSample + fixedDelay ≥ 1`: a packet injected by the Simple
scheduler at slot T is still in the delay queue after slot T's depletion
(with delay `sample + fixedDelay - 1`) and is in particular not in the receive
queue at slot T. -/
theorem depletion_order_one_slot_minimum :
    (∀ (s : Sched) (p : DelayedPkt), p ∈ s.delayQueue →
        (p.delay = 0 → p.toPkt ∈ (depleteDelayQueue s).rxQueue)
          ∧ (¬ p.delay = 0 → (⟨p.msgId, p.size, p.prio, p.delay - 1⟩ : DelayedPkt)
              ∈ (depleteDelayQueue s).delayQueue))
    ∧ (∀ (s : Sched) (m : Msg) (rest : List Msg) (sample : Nat),
        s.txQueue = m :: rest →
        (⟨m.id, m.size, 0⟩ : Pkt) ∉ s.rxQueue →
        (∀ q ∈ s.delayQueue, DelayedPkt.toPkt q ≠ ⟨m.id, m.size, 0⟩) →
        (⟨m.id, m.size, 0⟩ : Pkt) ∉ (depleteDelayQueue (simpleInject s sample)).rxQueue
          ∧ (⟨m.id, m.size, 0, sample + fixedDelay - 1⟩ : DelayedPkt)
              ∈ (depleteDelayQueue (simpleInject s sample)).delayQueue) := by
  constructor
  · intro s p hp
    constructor
    · intro hz
      have hmem : p.toPkt ∈ (s.delayQueue.filter (fun q => q.delay = 0)).map
          DelayedPkt.toPkt :=
        List.mem_map_of_mem _ (List.mem_filter.mpr ⟨hp, by simp [hz]⟩)
      show p.toPkt ∈ sortByPrio _
      exact ((List.perm_insertionSort _ _).mem_iff).mpr
        (List.mem_append.mpr (Or.inr hmem))
    · intro hz
      show _ ∈ (s.delayQueue.filter (fun q => ¬ q.delay = 0)).map _
      exact List.mem_map_of_mem _ (List.mem_filter.mpr ⟨hp, by simpa using hz⟩)
  · intro s m rest sample hq hrx hdq
    have hinj : (simpleInject s sample).delayQueue
        = sortByDelay (s.delayQueue ++ [⟨m.id, m.size, 0, sample + fixedDelay⟩]) := by
      simp [simpleInject, hq, addPktToDelayQueue, addPktToDelayQueueRaw]
    have hinjrx : (simpleInject s sample).rxQueue = s.rxQueue := simpleInject_rxQueue s sample
    constructor
    · intro hcon
      have hcon2 : (⟨m.id, m.size, 0⟩ : Pkt) ∈ (simpleInject s sample).rxQueue
          ++ ((simpleInject s sample).delayQueue.filter
              (fun q => q.delay = 0)).map DelayedPkt.toPkt :=
        ((List.perm_insertionSort _ _).mem_iff).mp hcon
      rcases List.mem_append.mp hcon2 with h1 | h1
      · rw [hinjrx] at h1
        exact hrx h1
      · obtain ⟨q, hqmem, hqeq⟩ := List.mem_map.mp h1
        have hqf := List.mem_filter.mp hqmem
        have hqdq : q ∈ s.delayQueue ++ [⟨m.id, m.size, 0, sample + fixedDelay⟩] :=
          ((List.perm_insertionSort _ _).mem_iff).mp (hinj ▸ hqf.1)
        rcases List.mem_append.mp hqdq with h2 | h2
        · exact hdq q h2 hqeq
        · have : q = ⟨m.id, m.size, 0, sample + fixedDelay⟩ := List.mem_singleton.mp h2
          have hdel : q.delay = 0 := by simpa using hqf.2
          rw [this] at hdel
          simp [fixedDelay] at hdel
    · have hmem : (⟨m.id, m.size, 0, sample + fixedDelay⟩ : DelayedPkt)
          ∈ (simpleInject s sample).delayQueue := by
        rw [hinj]
        exact ((List.perm_insertionSort _ _).mem_iff).mpr
          (List.mem_append.mpr (Or.inr (List.mem_singleton.mpr rfl)))
      show _ ∈ (depleteDelayQueue (simpleInject s sample)).delayQueue
      have : (⟨m.id, m.size, 0, sample + fixedDelay - 1⟩ : DelayedPkt)
          ∈ ((simpleInject s sample).delayQueue.filter (fun q => ¬ q.delay = 0)).map
            (fun p => (⟨p.msgId, p.size, p.prio, p.delay - 1⟩ : DelayedPkt)) :=
        List.mem_map_of_mem _ (List.mem_filter.mpr ⟨hmem, by simp [fixedDelay]⟩)
      exact this

/-- C1 (witness for the amended theorem): in a concrete state holding one
message of size 2, the packet injected at slot 0 with Poisson sample 0 (delay
1) is not in the receive queue after depletion and sits in the delay queue
with delay 0. -/
theorem depletion_order_one_slot_minimum_witness :
    (⟨7, 2, 0⟩ : Pkt) ∉ (depleteDelayQueue (simpleInject ⟨[⟨7, 2⟩], [], []⟩ 0)).rxQueue
      ∧ (⟨7, 2, 0, 0⟩ : DelayedPkt)
          ∈ (depleteDelayQueue (simpleInject ⟨[⟨7, 2⟩], [], []⟩ 0)).delayQueue :=
  depletion_order_one_slot_minimum.2 ⟨[⟨7, 2⟩], [], []⟩ ⟨7, 2⟩ [] 0 rfl
    (by decide) (by decide)

/-- C3: per-slot packet counts.  The Simple scheduler's transmission phase
adds one delay-queue packet when the transmit queue is non-empty and none
otherwise (hence at most 1); the Ideal scheduler's transmission phase adds
exactly `len(activeMessages)` packets — one per transmit-queue message, and
per message id exactly as many packets as that id has messages queued; and
the shared retirement phase removes at most one receive-queue packet (exactly
the head) and appends at most one departure record per message id. -/
theorem per_slot_packet_counts :
    (∀ (s : Sched) (d : Nat),
        (simpleInject s d).delayQueue.length
          = s.delayQueue.length + (if s.txQueue.isEmpty then 0 else 1))
    ∧ (∀ (s : Sched) (ds : Nat → Nat),
        (idealInject s ds).delayQueue.length
          = s.delayQueue.length + s.txQueue.length)
    ∧ (∀ (id : Nat) (s : Sched) (ds : Nat → Nat),
        delayCount id (idealInject s ds).delayQueue
          = delayCount id s.delayQueue + s.txQueue.countP (fun m => m.id = id))
    ∧ (∀ (slot : Nat) (s : Sched) (pot : PktOutTimes),
        (retireHead slot s pot).1.rxQueue = s.rxQueue.drop 1)
    ∧ (∀ (slot : Nat) (s : Sched) (pot : PktOutTimes) (id : Nat),
        ((retireHead slot s pot).2 id).length ≤ (pot id).length + 1) := by
  refine ⟨simpleInject_length, idealInject_length, ?_, retireHead_rxQueue,
    fun slot s pot id => retireHead_pot_le id slot s pot⟩
  intro id s ds
  exact idealInjectLoop_delayCount ds id s.txQueue 0 s

/-- C4: with `steps = 0` no slots are processed, so no messages are generated
and both result stores are empty; the aggregation loop then yields
`penalty = 0, numMsg = 0`, and the report `penalty/numMsg` is a division by
zero (no value) — the Python code raises `ZeroDivisionError` at this point
instead of reporting zero messages compared. -/
theorem steps_zero_division_fault :
    (runSimple []).msgDict = []
      ∧ (runSimple []).pot = emptyPot
      ∧ (runIdeal [] []).pot = emptyPot
      ∧ aggregate [] [] [] = some (0, 0)
      ∧ penaltyReport [] [] [] = none :=
  ⟨rfl, rfl, rfl, rfl, rfl⟩

/-- C5 (counterexample): a distribution table with non-increasing cumulative
probabilities (`[(1, 2), (1/2, 1)]`) combined with `rho = 0 ≤ 0` is not
rejected: the preamble computes `sizeAvg = 3/2 ≠ 0` and the simulation loop
runs.  So invalid configurations do not fail fast before the simulation. -/
theorem invalid_config_reaches_simulation :
    ¬ ((([((1 : ℚ), (2 : Int)), (1/2, 1)]).map Prod.fst).Chain' (· < ·))
      ∧ ((0 : ℚ) ≤ 0)
      ∧ runFromConfig 0 [((1 : ℚ), 2), (1/2, 1)] [] = some (runSimple [])
      ∧ runFromConfig (1/2) [((1 : ℚ), 2), (1/2, 1)]
            [⟨some 2, fun _ => 0⟩, ⟨none, fun _ => 0⟩]
          = some (runSimple [⟨some 2, fun _ => 0⟩, ⟨none, fun _ => 0⟩]) := by
  have hsa : sizeAvg [((1 : ℚ), 2), (1/2, 1)] = 3/2 := by
    norm_num [sizeAvg, sizeAvgLoop]
  refine ⟨?_, le_refl 0, ?_, ?_⟩
  · intro h
    rw [List.map_cons, List.map_cons, List.map_nil, List.chain'_cons] at h
    have : (1 : ℚ) < 1/2 := h.1
    norm_num at this
  · unfold runFromConfig probPerSlot
    rw [hsa]
    norm_num
  · unfold runFromConfig probPerSlot
    rw [hsa]
    norm_num

/-- C5 (amended): the only pre-simulation check the code performs is implicit:
`probPerSlot = rho / sizeAvg` fails (Python `ZeroDivisionError`) exactly when
the computed mean message size is zero — which holds for the empty (missing)
table.  Non-increasing cumulative probabilities and `rho ≤ 0` are not
validated; with any table of nonzero computed mean the simulation runs. -/
theorem preamble_failure_iff_zero_mean :
    (∀ (rho : ℚ) (table : List (ℚ × Int)) (inputs : List SlotIn),
        runFromConfig rho table inputs = none ↔ sizeAvg table = 0)
      ∧ sizeAvg [] = 0
      ∧ (∀ (rho : ℚ) (inputs : List SlotIn), runFromConfig rho [] inputs = none) := by
  have hmain : ∀ (rho : ℚ) (table : List (ℚ × Int)) (inputs : List SlotIn),
      runFromConfig rho table inputs = none ↔ sizeAvg table = 0 := by
    intro rho table inputs
    unfold runFromConfig probPerSlot
    by_cases h : sizeAvg table = 0 <;> simp [h]
  refine ⟨hmain, rfl, fun rho inputs => ?_⟩
  rw [hmain]
  rfl

/-- C7: `generateMsgSize` returns the size of the first table row whose
cumulative probability strictly exceeds the drawn value (the `find?`
characterization); for a valid table (strictly increasing cumulative
probabilities ending at 1.0) and any draw in `[0, 1)` the result is one of
the table's declared sizes; for the empty table it returns no value. -/
theorem generateMsgSize_contract :
    (∀ (table : List (ℚ × Int)) (r : ℚ),
        generateMsgSize table r = (table.find? (fun row => r < row.1)).map Prod.snd)
      ∧ (∀ (table : List (ℚ × Int)) (r : ℚ),
          (table.map Prod.fst).Chain' (· < ·) →
          (∃ sz : Int, table.getLast? = some (1, sz)) →
          0 ≤ r → r < 1 →
          ∃ row ∈ table, generateMsgSize table r = some row.2)
      ∧ (∀ r : ℚ, generateMsgSize [] r = none) := by
  refine ⟨?_, ?_, fun _ => rfl⟩
  · intro table r
    induction table with
    | nil => rfl
    | cons row rest ih =>
        rw [generateMsgSize, List.find?_cons]
        by_cases h : r < row.1
        · rw [if_pos h]
          rw [show decide (r < row.1) = true from by simpa using h]
          rfl
        · rw [if_neg h]
          rw [show decide (r < row.1) = false from by simpa using h]
          exact ih
  · intro table r hchain hlast h0 h1
    clear hchain
    induction table with
    | nil =>
        obtain ⟨sz, hsz⟩ := hlast
        cases hsz
    | cons row rest ih =>
        by_cases h : r < row.1
        · refine ⟨row, List.mem_cons_self _ _, ?_⟩
          rw [generateMsgSize, if_pos h]
        · cases rest with
          | nil =>
              obtain ⟨sz, hsz⟩ := hlast
              have hrow : row = ((1 : ℚ), sz) := by
                simpa [List.getLast?_singleton] using hsz
              rw [hrow] at h
              exact absurd h1 (by simpa using h)
          | cons r2 rest2 =>
              have hlast2 : ∃ sz : Int, (r2 :: rest2).getLast? = some (1, sz) := by
                obtain ⟨sz, hsz⟩ := hlast
                exact ⟨sz, by rwa [List.getLast?_cons_cons] at hsz⟩
              obtain ⟨row2, hmem, heq⟩ := ih hlast2
              refine ⟨row2, List.mem_cons_of_mem _ hmem, ?_⟩
              rw [generateMsgSize, if_neg h]
              exact heq

/-- C7 (witness): for the table `[(1/2, 1), (1, 2)]` and the draw `3/4`, the
sampler returns a declared size. -/
theorem generateMsgSize_contract_witness :
    ∃ row ∈ [((1 : ℚ)/2, (1 : Int)), (1, 2)],
      generateMsgSize [((1 : ℚ)/2, 1), (1, 2)] (3/4) = some row.2 :=
  generateMsgSize_contract.2.1 [((1 : ℚ)/2, 1), (1, 2)] (3/4)
    (by norm_num [List.chain'_cons]) ⟨2, rfl⟩ (by norm_num) (by norm_num)

/-- C8: every operation preserves the three queue sort invariants — arrival
insertion, Simple injection (decrementing the head), depletion, retirement,
Ideal injection (uniform decrement without a re-sort), raw delay-queue
insertion, and both full scheduler invocations. -/
theorem queue_order_invariants (s : Sched) (hs : SortedSched s) :
    (∀ (id : Nat) (sz : Int), SortedSched (insertTx s id sz))
      ∧ (∀ d : Nat, SortedSched (simpleInject s d))
      ∧ SortedSched (depleteDelayQueue s)
      ∧ (∀ (slot : Nat) (pot : PktOutTimes), SortedSched (retireHead slot s pot).1)
      ∧ (∀ ds : Nat → Nat, SortedSched (idealInject s ds))
      ∧ (∀ (pkt : Pkt) (d : Nat), SortedSched (addPktToDelayQueueRaw s pkt d))
      ∧ (∀ (slot : Nat) (pot : PktOutTimes) (d : Nat),
          SortedSched (simpleScheduler slot s pot d).1)
      ∧ (∀ (slot : Nat) (pot : PktOutTimes) (ds : Nat → Nat),
          SortedSched (idealScheduler slot s pot ds).1) :=
  ⟨fun id sz => insertTx_sorted s id sz hs,
   fun d => simpleInject_sorted s d hs,
   depleteDelayQueue_sorted s hs,
   fun slot pot => retireHead_sorted slot s pot hs,
   fun ds => idealInject_sorted s ds hs,
   fun pkt d => addPktToDelayQueueRaw_sorted s pkt d hs,
   fun slot pot d => simpleScheduler_sorted slot s pot d hs,
   fun slot pot ds => idealScheduler_sorted slot s pot ds hs⟩

/-- C8 (witness): the invariants hold and are preserved on a concrete sorted
state with two transmit-queue messages, one in-flight packet and one received
packet. -/
theorem queue_order_invariants_witness :
    SortedSched (simpleInject ⟨[⟨0, 1⟩, ⟨1, 3⟩], [⟨2, 2, 0, 1⟩], [⟨3, 1, 0⟩]⟩ 2)
      ∧ SortedSched (idealInject ⟨[⟨0, 1⟩, ⟨1, 3⟩], [⟨2, 2, 0, 1⟩], [⟨3, 1, 0⟩]⟩
          (fun _ => 0)) :=
  ⟨(queue_order_invariants ⟨[⟨0, 1⟩, ⟨1, 3⟩], [⟨2, 2, 0, 1⟩], [⟨3, 1, 0⟩]⟩
      (by constructor <;> simp [txSorted, delaySorted, rxSorted] <;> decide)).2.1 2,
   (queue_order_invariants ⟨[⟨0, 1⟩, ⟨1, 3⟩], [⟨2, 2, 0, 1⟩], [⟨3, 1, 0⟩]⟩
      (by constructor <;> simp [txSorted, delaySorted, rxSorted] <;> decide)).2.2.2.2.1
    (fun _ => 0)⟩

/-- C2: queue mass conservation.  For every oracle sequence — hence at every
slot boundary of the Simple run, and of the Ideal run replaying its message
table — each generated (respectively, replay-inserted) message's remaining
transmit-queue size plus its delay-queue packets plus its receive-queue
packets plus its recorded departures equals its original size. -/
theorem queue_mass_conservation (gen : List SlotIn)
    (idealIns : List (Bool × (Nat → Nat))) :
    (∀ e ∈ (runSimple gen).msgDict,
        massSim e.id (runSimple gen).sched (runSimple gen).pot = e.size)
      ∧ (∀ e ∈ (runIdeal (runSimple gen).msgDict idealIns).inserted,
          massSim e.id (runIdeal (runSimple gen).msgDict idealIns).sched
            (runIdeal (runSimple gen).msgDict idealIns).pot = e.size) :=
  ⟨(runSimple_inv gen).conserved,
   (runIdeal_inv _ (runSimple_msgDict_ids gen) idealIns).conserved⟩

/-- C2 (witness): after a concrete 2-slot Simple run with one size-2 arrival,
that message's mass is its size, in both runs. -/
theorem queue_mass_conservation_witness :
    massSim 0 (runSimple [⟨some 2, fun _ => 0⟩, ⟨none, fun _ => 0⟩]).sched
        (runSimple [⟨some 2, fun _ => 0⟩, ⟨none, fun _ => 0⟩]).pot = 2
      ∧ massSim 0
          (runIdeal (runSimple [⟨some 2, fun _ => 0⟩, ⟨none, fun _ => 0⟩]).msgDict
            [(true, fun _ => 0)]).sched
          (runIdeal (runSimple [⟨some 2, fun _ => 0⟩, ⟨none, fun _ => 0⟩]).msgDict
            [(true, fun _ => 0)]).pot = 2 :=
  ⟨(queue_mass_conservation [⟨some 2, fun _ => 0⟩, ⟨none, fun _ => 0⟩]
      [(true, fun _ => 0)]).1 ⟨0, 2, 0⟩ (by decide),
   (queue_mass_conservation [⟨some 2, fun _ => 0⟩, ⟨none, fun _ => 0⟩]
      [(true, fun _ => 0)]).2 ⟨0, 2, 0⟩ (by decide)⟩

/-- C6: identical replay trace.  Replaying the Simple run's recorded message
table for at least as many arrival-check slots as the Simple run had slots
inserts exactly the recorded messages — same ids, same sizes, at exactly the
recorded arrival slots — and nothing else: the Ideal run's insertion trace
equals the message table. -/
theorem identical_replay_trace (gen : List SlotIn) (dss : List (Nat → Nat))
    (hlen : gen.length ≤ dss.length) :
    (runIdeal ((runSimple gen).msgDict) (dss.map (fun d => (true, d)))).inserted
      = (runSimple gen).msgDict := by
  have hsim := runSimple_inv gen
  apply runIdeal_replay_complete _ (runSimple_msgDict_ids gen) hsim.slotsMono gen.length
  · intro e he
    have := hsim.slotsLt e he
    rwa [runSimple_slot] at this
  · exact hlen

/-- C6 (witness): a concrete 2-slot trace with one size-2 message arriving at
slot 0 and one size-1 message at slot 1 is replayed identically. -/
theorem identical_replay_trace_witness :
    (runIdeal ((runSimple [⟨some 2, fun _ => 0⟩, ⟨some 1, fun _ => 0⟩]).msgDict)
        ([fun _ => 0, fun _ => 0].map (fun d => (true, d)))).inserted
      = (runSimple [⟨some 2, fun _ => 0⟩, ⟨some 1, fun _ => 0⟩]).msgDict :=
  identical_replay_trace [⟨some 2, fun _ => 0⟩, ⟨some 1, fun _ => 0⟩]
    [fun _ => 0, fun _ => 0] (by decide)

/-- C10: in both runs, every message's departure-record slots are strictly
increasing (the slot counter strictly increases and each invocation appends
at most one record), so the slot of the last record equals the Python
`max(pktTimes)` the analyzer computes. -/
theorem departure_slots_increasing (gen : List SlotIn)
    (idealIns : List (Bool × (Nat → Nat))) (id : Nat) :
    ((((runSimple gen).pot id).map DepRec.slot).Pairwise (· < ·)
        ∧ ∀ h : ((runSimple gen).pot id).map DepRec.slot ≠ [],
            (((runSimple gen).pot id).map DepRec.slot).getLast h
              = pyMax (((runSimple gen).pot id).map DepRec.slot))
      ∧ ((((runIdeal (runSimple gen).msgDict idealIns).pot id).map DepRec.slot).Pairwise
            (· < ·)
          ∧ ∀ h : ((runIdeal (runSimple gen).msgDict idealIns).pot id).map DepRec.slot
                ≠ [],
              (((runIdeal (runSimple gen).msgDict idealIns).pot id).map
                  DepRec.slot).getLast h
                = pyMax (((runIdeal (runSimple gen).msgDict idealIns).pot id).map
                    DepRec.slot)) := by
  have h1 := (runSimple_inv gen).recMono id
  have h2 := (runIdeal_inv _ (runSimple_msgDict_ids gen) idealIns).recMono id
  exact ⟨⟨h1, fun h => getLast_eq_pyMax _ h1 h⟩, ⟨h2, fun h => getLast_eq_pyMax _ h2 h⟩⟩

/-- C10 (witness): in the concrete 3-slot runs the first message's recorded
slots are strictly increasing and the last equals the maximum. -/
theorem departure_slots_increasing_witness :
    (((runSimple [⟨some 2, fun _ => 0⟩, ⟨none, fun _ => 0⟩, ⟨none, fun _ => 0⟩]).pot
        0).map DepRec.slot).Pairwise (· < ·)
      ∧ (((runSimple [⟨some 2, fun _ => 0⟩, ⟨none, fun _ => 0⟩,
            ⟨none, fun _ => 0⟩]).pot 0).map DepRec.slot).getLast (by decide)
          = pyMax (((runSimple [⟨some 2, fun _ => 0⟩, ⟨none, fun _ => 0⟩,
              ⟨none, fun _ => 0⟩]).pot 0).map DepRec.slot) :=
  ⟨(departure_slots_increasing [⟨some 2, fun _ => 0⟩, ⟨none, fun _ => 0⟩,
      ⟨none, fun _ => 0⟩] [] 0).1.1,
   (departure_slots_increasing [⟨some 2, fun _ => 0⟩, ⟨none, fun _ => 0⟩,
      ⟨none, fun _ => 0⟩] [] 0).1.2 (by decide)⟩

/-! ### C9: the analyzer's penalty computation -/

/-- The keys of the Simple store that are also present in the Ideal store —
the messages the spec says are compared (all others are excluded). -/
def commonKeys (ideal simple : Store) : Store :=
  simple.filter (fun kv => (ideal.find? (fun x => x.1 = kv.1)).isSome)

/-- Modelled from the spec's words (§4.7), for comparison with the code's
loop: a compared message contributes
`(completionSimple - completionIdeal) / completionIdeal`. -/
def penaltyTermSpec (dict : List MsgEntry) (ideal : Store)
    (kv : Nat × List DepRec) : ℚ :=
  match ideal.find? (fun x => x.1 = kv.1), lookupMsg dict kv.1 with
  | some ikv, some e =>
      ((completionTime kv.2 e.arrivalSlot : ℚ) - (completionTime ikv.2 e.arrivalSlot : ℚ))
        / (completionTime ikv.2 e.arrivalSlot : ℚ)
  | some _, none => 0
  | none, _ => 0

lemma aggLoop_char (dict : List MsgEntry) (ideal : Store) :
    ∀ (simple : Store) (acc : ℚ × Nat),
      (∀ kv ∈ simple, ∀ ikv, ideal.find? (fun x => x.1 = kv.1) = some ikv →
          ∃ e, lookupMsg dict kv.1 = some e ∧ completionTime ikv.2 e.arrivalSlot ≠ 0) →
      aggLoop dict ideal simple acc
        = some (acc.1 + ((commonKeys ideal simple).map (penaltyTermSpec dict ideal)).sum,
                acc.2 + (commonKeys ideal simple).length) := by
  intro simple
  induction simple with
  | nil => intro acc _; simp [aggLoop, commonKeys]
  | cons kv rest ih =>
      intro acc hok
      obtain ⟨key, recsS⟩ := kv
      rw [aggLoop]
      cases hf : ideal.find? (fun x => x.1 = (key, recsS).1) with
      | none =>
          rw [ih acc (fun kv2 h2 => hok kv2 (List.mem_cons_of_mem _ h2))]
          have hcommon : commonKeys ideal ((key, recsS) :: rest) = commonKeys ideal rest := by
            unfold commonKeys
            rw [List.filter_cons]
            simp [hf]
          rw [hcommon]
      | some ikv =>
          obtain ⟨e, he, hnz⟩ := hok (key, recsS) (List.mem_cons_self _ _) ikv hf
          rw [he]
          simp only
          rw [if_neg hnz]
          rw [ih _ (fun kv2 h2 => hok kv2 (List.mem_cons_of_mem _ h2))]
          have hcommon : commonKeys ideal ((key, recsS) :: rest)
              = (key, recsS) :: commonKeys ideal rest := by
            unfold commonKeys
            rw [List.filter_cons]
            simp [hf]
          rw [hcommon]
          have hterm : penaltyTermSpec dict ideal (key, recsS)
              = ((completionTime recsS e.arrivalSlot : ℚ)
                  - (completionTime ikv.2 e.arrivalSlot : ℚ))
                / (completionTime ikv.2 e.arrivalSlot : ℚ) := by
            unfold penaltyTermSpec
            rw [hf, he]
          rw [List.map_cons, List.sum_cons, List.length_cons, hterm]
          simp only [Option.some.injEq, Prod.mk.injEq]
          constructor
          · ring
          · omega

/-- C9: for every message id in the Simple store that is also in the Ideal
store (and recorded in the message table with a nonzero Ideal completion
time), the analyzer adds exactly
`(completionSimple - completionIdeal) / completionIdeal` — completion time
being `max(recorded slots) - arrivalSlot` — and counts it; ids absent from
the Ideal store are skipped (contributing to neither the sum nor the count,
and causing no failure), and ids absent from the Simple store are never
visited.  The aggregation succeeds with exactly the common ids' sum and
count. -/
theorem penalty_aggregation_contract (dict : List MsgEntry) (simple ideal : Store)
    (hok : ∀ kv ∈ simple, ∀ ikv, ideal.find? (fun x => x.1 = kv.1) = some ikv →
        ∃ e, lookupMsg dict kv.1 = some e ∧ completionTime ikv.2 e.arrivalSlot ≠ 0) :
    aggregate dict simple ideal
        = some (((commonKeys ideal simple).map (penaltyTermSpec dict ideal)).sum,
                (commonKeys ideal simple).length)
      ∧ (∀ (key : Nat) (recsS : List DepRec),
          ideal.find? (fun x => x.1 = key) = none →
          aggLoop dict ideal ((key, recsS) :: simple) (0, 0)
            = aggLoop dict ideal simple (0, 0)) := by
  constructor
  · unfold aggregate
    rw [aggLoop_char dict ideal simple (0, 0) hok]
    simp
  · intro key recsS hnone
    rw [aggLoop]
    rw [show ideal.find? (fun x => x.1 = (key, recsS).1) = none from hnone]

/-- C9 (witness): a concrete table and stores — one message completed at slot
4 under Simple and slot 2 under Ideal, arrival slot 0 — aggregate to the
spec's sum over the common ids, and a key absent from the Ideal store is
skipped. -/
theorem penalty_aggregation_contract_witness :
    aggregate [⟨0, 2, 0⟩] [(0, [⟨3, 0, 2⟩, ⟨4, 0, 1⟩])] [(0, [⟨1, 2, 2⟩, ⟨2, 1, 1⟩])]
        = some (((commonKeys [(0, [⟨1, 2, 2⟩, ⟨2, 1, 1⟩])]
              [(0, [⟨3, 0, 2⟩, ⟨4, 0, 1⟩])]).map
            (penaltyTermSpec [⟨0, 2, 0⟩] [(0, [⟨1, 2, 2⟩, ⟨2, 1, 1⟩])])).sum,
          (commonKeys [(0, [⟨1, 2, 2⟩, ⟨2, 1, 1⟩])]
              [(0, [⟨3, 0, 2⟩, ⟨4, 0, 1⟩])]).length) :=
  (penalty_aggregation_contract [⟨0, 2, 0⟩] [(0, [⟨3, 0, 2⟩, ⟨4, 0, 1⟩])]
    [(0, [⟨1, 2, 2⟩, ⟨2, 1, 1⟩])] (by decide)).1

end Simulator
